import Mathlib

/-!
Shallow embedding of the react-circular-queue ring buffer.

Source layout:
* CircularBuffer (the Ring Store): a circular array with fields
  buffer, capacity (physical), logicalCapacity, size, head, tail,
  and operations push / pop / get / clear / resize plus an iterator.
* BufferManager (the Buffer Facade): wraps one CircularBuffer and adds
  single/bulk pushHead, pushTail, popHead, popTail, getHead, getTail,
  getAll, replaceAll and status queries.

Modelling choices:
* JS numbers used as counts are modelled as Rat where the code calls
  Math.floor (counted get / pop), as Int where only the sign is tested
  (capacities), and as Nat for the internal indices and sizes.
* A slot of the backing array holds `Option T` (undefined = none).
* The runtime value of a Direction is a string ("head" / "tail"); the
  low-level operations compare the argument against those strings and
  throw on anything else.  We model the two in-enumeration branches as a
  total function over the two-constructor type `Direction`, and the
  string-dispatching entry points (pushRaw / popRaw / getRaw) mirror the
  source's if/else-if/throw structure, returning Except.
* Exceptions are modelled with Except BufferError; a thrown exception
  leaves the state unchanged (the source throws before mutating).
-/

/-- Runtime direction tag: the two-valued enumeration
{HEAD = "head" (oldest side), TAIL = "tail" (newest side)}. -/
inductive Direction where
| head : Direction
| tail : Direction
deriving DecidableEq, Repr

/-- String value of Direction.HEAD at runtime. -/
def Direction.headString : String := "head"

/-- String value of Direction.TAIL at runtime. -/
def Direction.tailString : String := "tail"

/-- The two error kinds the source throws. -/
inductive BufferError where
| invalidCapacity : BufferError
| invalidDirection : BufferError
deriving DecidableEq, Repr

/-- State of the low-level CircularBuffer (Ring Store). -/
structure CircularBuffer (T : Type) where
  buffer : List (Option T)
  capacity : Nat
  logicalCapacity : Nat
  size : Nat
  head : Nat
  tail : Nat
deriving DecidableEq, Repr

namespace CircularBuffer

/-- Constructor: throws InvalidCapacity when capacity <= 0, otherwise
allocates an all-undefined array of that length with both cursors at 0. -/
def create (T : Type) (capacity : Int) : Except BufferError (CircularBuffer T) :=
  if capacity ≤ 0 then .error .invalidCapacity
  else .ok
    { buffer := List.replicate capacity.toNat none
      capacity := capacity.toNat
      logicalCapacity := capacity.toNat
      size := 0
      head := 0
      tail := 0 }

/-- push(item, direction): the two in-enumeration branches of the source.
HEAD inserts before the current head; TAIL inserts at the tail; when the
buffer is at logical capacity the opposite cursor is moved to evict. -/
def push {T : Type} (b : CircularBuffer T) (item : T) : Direction → CircularBuffer T
| .head =>
  let h := (b.head + b.capacity - 1) % b.capacity
  let buf := b.buffer.set h (some item)
  if b.size < b.logicalCapacity then
    { b with buffer := buf, head := h, size := b.size + 1 }
  else
    { b with buffer := buf, head := h
             tail := (b.tail + b.capacity - 1) % b.capacity }
| .tail =>
  let buf := b.buffer.set b.tail (some item)
  let t := (b.tail + 1) % b.capacity
  if b.size < b.logicalCapacity then
    { b with buffer := buf, tail := t, size := b.size + 1 }
  else
    { b with buffer := buf, tail := t, head := (b.head + 1) % b.capacity }

/-- push with the runtime (string) direction argument, including the
invalid-direction throw. -/
def pushRaw {T : Type} (b : CircularBuffer T) (item : T) (direction : String) :
    Except BufferError (CircularBuffer T) :=
  if direction = Direction.headString then .ok (b.push item .head)
  else if direction = Direction.tailString then .ok (b.push item .tail)
  else .error .invalidDirection

/-- pop(direction): removes and returns one element; returns undefined on
an empty buffer; canonicalizes both cursors to 0 when the count reaches 0. -/
def pop {T : Type} (b : CircularBuffer T) (d : Direction) :
    Option T × CircularBuffer T :=
  if b.size = 0 then (none, b)
  else
    match d with
    | .head =>
      let item := b.buffer.getD b.head none
      let buf := b.buffer.set b.head none
      let h := (b.head + 1) % b.capacity
      let s := b.size - 1
      if s = 0 then (item, { b with buffer := buf, head := 0, tail := 0, size := 0 })
      else (item, { b with buffer := buf, head := h, size := s })
    | .tail =>
      let lastIndex := (b.tail + b.capacity - 1) % b.capacity
      let item := b.buffer.getD lastIndex none
      let buf := b.buffer.set lastIndex none
      let s := b.size - 1
      if s = 0 then (item, { b with buffer := buf, head := 0, tail := 0, size := 0 })
      else (item, { b with buffer := buf, tail := lastIndex, size := s })

/-- pop with the runtime (string) direction argument: the size-0 early
return fires before the direction is inspected. -/
def popRaw {T : Type} (b : CircularBuffer T) (direction : String) :
    Except BufferError (Option T × CircularBuffer T) :=
  if b.size = 0 then .ok (none, b)
  else if direction = Direction.headString then .ok (b.pop .head)
  else if direction = Direction.tailString then .ok (b.pop .tail)
  else .error .invalidDirection

/-- Single-element peek (the count-omitted form of get, nonempty case). -/
def get1 {T : Type} (b : CircularBuffer T) : Direction → Option T
| .head => b.buffer.getD b.head none
| .tail => b.buffer.getD ((b.tail + b.capacity - 1) % b.capacity) none

/-- Effective count of the counted get:
min(max(0, Math.floor(count)), size). -/
def clampCount {T : Type} (b : CircularBuffer T) (count : Rat) : Nat :=
  min (Rat.floor count).toNat b.size

/-- Counted peek from the head: walks forward from `head`, oldest to newer. -/
def getManyHead {T : Type} (b : CircularBuffer T) (n : Nat) : List (Option T) :=
  (List.range n).map (fun i => b.buffer.getD ((b.head + i) % b.capacity) none)

/-- The backward walk of the counted tail peek: reads the slot at idx then
steps idx one slot back (modularly), n times. -/
def getManyTailAux {T : Type} (b : CircularBuffer T) : Nat → Nat → List (Option T)
| _, 0 => []
| idx, Nat.succ k =>
  b.buffer.getD idx none :: b.getManyTailAux ((idx + b.capacity - 1) % b.capacity) k

/-- Counted peek from the tail: starts one before `tail` (the newest slot)
and walks backward, newest to older. -/
def getManyTail {T : Type} (b : CircularBuffer T) (n : Nat) : List (Option T) :=
  b.getManyTailAux ((b.tail + b.capacity - 1) % b.capacity) n

/-- Counted peek in a given direction. -/
def getMany {T : Type} (b : CircularBuffer T) (d : Direction) (n : Nat) :
    List (Option T) :=
  match d with
  | .head => b.getManyHead n
  | .tail => b.getManyTail n

/-- Result of the source's get: a single item (possibly undefined) or an
array, depending on whether a count argument was supplied. -/
inductive GetResult (T : Type) where
| single : Option T → GetResult T
| many : List (Option T) → GetResult T
deriving DecidableEq, Repr

/-- get(direction, count?) with the runtime (string) direction argument:
empty buffer returns undefined / [] before the direction is inspected, and
the counted form returns [] when the effective count is 0, also before the
direction is inspected. -/
def getRaw {T : Type} (b : CircularBuffer T) (direction : String)
    (count : Option Rat) : Except BufferError (GetResult T) :=
  if b.size = 0 then
    .ok (match count with
         | none => .single none
         | some _ => .many [])
  else
    match count with
    | none =>
      if direction = Direction.headString then .ok (.single (b.get1 .head))
      else if direction = Direction.tailString then .ok (.single (b.get1 .tail))
      else .error .invalidDirection
    | some c =>
      let n := b.clampCount c
      if n = 0 then .ok (.many [])
      else if direction = Direction.headString then .ok (.many (b.getManyHead n))
      else if direction = Direction.tailString then .ok (.many (b.getManyTail n))
      else .error .invalidDirection

/-- clear(): reset storage to all-undefined, both cursors and size to 0. -/
def clear {T : Type} (b : CircularBuffer T) : CircularBuffer T :=
  { b with buffer := List.replicate b.capacity none
           head := 0
           tail := 0
           size := 0 }

/-- The body of resize for a positive new capacity: expand the physical
storage (compacting live elements to slots 0..size-1), or discard the
oldest elements when shrinking below the current size, or change only the
logical ceiling; logicalCapacity is set to newCapacity in every case. -/
def resizeCore {T : Type} (b : CircularBuffer T) (newCapacity : Nat) :
    CircularBuffer T :=
  if b.capacity < newCapacity then
    -- the copy loop fills slots 0..size-1 of a fresh all-undefined array
    let newBuffer := (List.range newCapacity).map
      (fun i => if i < b.size then b.buffer.getD ((b.head + i) % b.capacity) none
                else none)
    { buffer := newBuffer
      capacity := newCapacity
      logicalCapacity := newCapacity
      size := b.size
      head := 0
      tail := b.size }
  else if newCapacity < b.size then
    let dataLoss := b.size - newCapacity
    { b with head := (b.head + dataLoss) % b.capacity
             size := newCapacity
             logicalCapacity := newCapacity }
  else
    { b with logicalCapacity := newCapacity }

/-- resize(newCapacity): throws InvalidCapacity when newCapacity <= 0. -/
def resize {T : Type} (b : CircularBuffer T) (newCapacity : Int) :
    Except BufferError (CircularBuffer T) :=
  if newCapacity ≤ 0 then .error .invalidCapacity
  else .ok (b.resizeCore newCapacity.toNat)

/-- The iterator: live elements oldest to newest. -/
def toList {T : Type} (b : CircularBuffer T) : List (Option T) :=
  (List.range b.size).map (fun i => b.buffer.getD ((b.head + i) % b.capacity) none)

/-- Well-formedness of a buffer state: every state reachable from `create`
satisfies this. -/
def WF {T : Type} (b : CircularBuffer T) : Prop :=
  b.buffer.length = b.capacity ∧
  0 < b.logicalCapacity ∧
  b.logicalCapacity ≤ b.capacity ∧
  b.size ≤ b.logicalCapacity ∧
  b.head < b.capacity ∧
  b.tail = (b.head + b.size) % b.capacity

instance {T : Type} (b : CircularBuffer T) : Decidable (WF b) := by
  unfold WF; infer_instance

end CircularBuffer

/-- Last n elements of a list (what Array.prototype.slice(-n) keeps, for
1 <= n <= length, and the shape of the tail-side overflow result). -/
def takeLast {α : Type _} (n : Nat) (l : List α) : List α :=
  l.drop (l.length - n)

/-- State of the high-level BufferManager (Buffer Facade): wraps exactly
one CircularBuffer. -/
structure BufferManager (T : Type) where
  buffer : CircularBuffer T
deriving DecidableEq, Repr

namespace BufferManager

/-- Factory: new BufferManager(capacity) = wrap new CircularBuffer(capacity). -/
def create (T : Type) (capacity : Int) : Except BufferError (BufferManager T) :=
  (CircularBuffer.create T capacity).map (fun b => ⟨b⟩)

/-- pushHead with a single (non-array) item: one push to the oldest side. -/
def pushHeadOne {T : Type} (m : BufferManager T) (input : T) : BufferManager T :=
  ⟨m.buffer.push input .head⟩

/-- pushHead with an array: truncate to the first logicalCapacity items
when longer, then push each item to the oldest side iterating the
(possibly truncated) array from its last element down to its first. -/
def pushHeadMany {T : Type} (m : BufferManager T) (input : List T) : BufferManager T :=
  let capacity := m.buffer.logicalCapacity
  let itemsToAdd := if capacity < input.length then input.take capacity else input
  ⟨itemsToAdd.reverse.foldl (fun b x => b.push x .head) m.buffer⟩

/-- pushTail with a single (non-array) item: one push to the newest side. -/
def pushTailOne {T : Type} (m : BufferManager T) (input : T) : BufferManager T :=
  ⟨m.buffer.push input .tail⟩

/-- pushTail with an array: truncate to the last logicalCapacity items
(slice(-capacity)) when longer, then push each item to the newest side in
forward order. -/
def pushTailMany {T : Type} (m : BufferManager T) (input : List T) : BufferManager T :=
  let capacity := m.buffer.logicalCapacity
  let itemsToAdd :=
    if capacity < input.length then input.drop (input.length - capacity) else input
  ⟨itemsToAdd.foldl (fun b x => b.push x .tail) m.buffer⟩

/-- The counted pop loop: n single pops from the given side, collecting
the results in pop order. -/
def popLoop {T : Type} (d : Direction) :
    Nat → CircularBuffer T → List (Option T) × CircularBuffer T
| 0, b => ([], b)
| Nat.succ k, b =>
  let r := b.pop d
  let rest := popLoop d k r.2
  (r.1 :: rest.1, rest.2)

/-- popHead() without a count: a single pop from the oldest side. -/
def popHeadOne {T : Type} (m : BufferManager T) : Option T × BufferManager T :=
  let r := m.buffer.pop .head
  (r.1, ⟨r.2⟩)

/-- popHead(count): clamp to min(max(0, Math.floor(count)), size), then
loop that many single pops from the oldest side (oldest to newer). -/
def popHeadN {T : Type} (m : BufferManager T) (count : Rat) :
    List (Option T) × BufferManager T :=
  let n := min (Rat.floor count).toNat m.buffer.size
  let r := popLoop .head n m.buffer
  (r.1, ⟨r.2⟩)

/-- popTail() without a count: a single pop from the newest side. -/
def popTailOne {T : Type} (m : BufferManager T) : Option T × BufferManager T :=
  let r := m.buffer.pop .tail
  (r.1, ⟨r.2⟩)

/-- popTail(count): clamp as popHead(count), then loop single pops from
the newest side (newest to older). -/
def popTailN {T : Type} (m : BufferManager T) (count : Rat) :
    List (Option T) × BufferManager T :=
  let n := min (Rat.floor count).toNat m.buffer.size
  let r := popLoop .tail n m.buffer
  (r.1, ⟨r.2⟩)

/-- getAll(): full snapshot, oldest to newest (materializes the iterator). -/
def getAll {T : Type} (m : BufferManager T) : List (Option T) :=
  m.buffer.toList

/-- size(): delegates to getSize. -/
def size {T : Type} (m : BufferManager T) : Nat :=
  m.buffer.size

/-- capacity(): the logical capacity. -/
def capacity {T : Type} (m : BufferManager T) : Nat :=
  m.buffer.logicalCapacity

/-- available(): capacity() - size(), as a JS number. -/
def available {T : Type} (m : BufferManager T) : Int :=
  (m.capacity : Int) - (m.size : Int)

/-- clear(): pass-through. -/
def clear {T : Type} (m : BufferManager T) : BufferManager T :=
  ⟨m.buffer.clear⟩

/-- replaceAll(items): clear() followed by pushTail(items). -/
def replaceAll {T : Type} (m : BufferManager T) (items : List T) : BufferManager T :=
  m.clear.pushTailMany items

end BufferManager

/-- A JS runtime value, enough to observe the Array.isArray dispatch used
by the facade: arrays of values, and non-array primitives. -/
inductive JSVal where
| arr : List JSVal → JSVal
| prim : Nat → JSVal

/-- Array.isArray. -/
def JSVal.isArray : JSVal → Bool
| .arr _ => true
| .prim _ => false

/-- The elements of an array value ([] on a non-array, never reached by
the many-branch). -/
def JSVal.elems : JSVal → List JSVal
| .arr xs => xs
| .prim _ => []

namespace BufferManager

/-- The facade's isMany guard: structural Array.isArray on the argument. -/
def isMany (input : JSVal) : Bool :=
  input.isArray

/-- pushTail as it dispatches at runtime on a JS value: the isMany branch
iterates the argument's elements, the other branch stores the argument
itself as one element. -/
def pushTailJS (m : BufferManager JSVal) (input : JSVal) : BufferManager JSVal :=
  if isMany input then m.pushTailMany input.elems
  else m.pushTailOne input

/-- pushHead as it dispatches at runtime on a JS value. -/
def pushHeadJS (m : BufferManager JSVal) (input : JSVal) : BufferManager JSVal :=
  if isMany input then m.pushHeadMany input.elems
  else m.pushHeadOne input

end BufferManager

/-- One operation of the facade-level operation language (for the
all-sequences capacity invariant): single and bulk pushes and pops on
either side, peeks, clear, resize and replaceAll. -/
inductive BufOp (T : Type) where
| pushH : T → BufOp T
| pushT : T → BufOp T
| pushHeadM : List T → BufOp T
| pushTailM : List T → BufOp T
| popH : BufOp T
| popT : BufOp T
| popHN : Rat → BufOp T
| popTN : Rat → BufOp T
| getH : Option Rat → BufOp T
| getT : Option Rat → BufOp T
| clearOp : BufOp T
| resizeOp : Int → BufOp T
| replaceAllOp : List T → BufOp T

/-- Apply one operation to the facade state; get is non-mutating, and a
resize that throws (newCapacity <= 0) leaves the state unchanged because
the source throws before mutating anything. -/
def BufOp.apply {T : Type} (m : BufferManager T) : BufOp T → BufferManager T
| .pushH x => m.pushHeadOne x
| .pushT x => m.pushTailOne x
| .pushHeadM xs => m.pushHeadMany xs
| .pushTailM xs => m.pushTailMany xs
| .popH => (m.popHeadOne).2
| .popT => (m.popTailOne).2
| .popHN c => (m.popHeadN c).2
| .popTN c => (m.popTailN c).2
| .getH _ => m
| .getT _ => m
| .clearOp => m.clear
| .resizeOp c =>
  match m.buffer.resize c with
  | .ok b => ⟨b⟩
  | .error _ => m
| .replaceAllOp xs => m.replaceAll xs

/-- Apply a sequence of operations left to right. -/
def BufOp.applyAll {T : Type} (m : BufferManager T) (ops : List (BufOp T)) :
    BufferManager T :=
  ops.foldl BufOp.apply m

/-- Push each element of a list, in order, to the given side: the
one-by-one reference behavior for the bulk facade operations (and the loop
body those operations actually run after truncation). -/
def CircularBuffer.pushSeq {T : Type} (b : CircularBuffer T) (xs : List T)
    (d : Direction) : CircularBuffer T :=
  xs.foldl (fun b x => b.push x d) b

/-- The empty capacity-1 buffer over String (the payload of create 1):
a concrete state used to exercise the boundary behaviors. -/
def emptyBufS1 : CircularBuffer String :=
  { buffer := [none], capacity := 1, logicalCapacity := 1
    size := 0, head := 0, tail := 0 }

/-- A full capacity-3 buffer over String holding A,B,C oldest to newest
(the state reached by pushing A,B,C to the tail of a fresh buffer). -/
def fullBufS3 : CircularBuffer String :=
  { buffer := [some "A", some "B", some "C"], capacity := 3, logicalCapacity := 3
    size := 3, head := 0, tail := 0 }

/-- A fresh capacity-2 facade over Nat, as produced by create 2. -/
def wM2 : BufferManager Nat :=
  ⟨{ buffer := [none, none], capacity := 2, logicalCapacity := 2
     size := 0, head := 0, tail := 0 }⟩

/-- A mixed operation sequence exercising single, bulk, pop, resize and
replaceAll paths. -/
def wOps : List (BufOp Nat) :=
  [BufOp.pushT 1, BufOp.pushTailM [2, 3, 4], BufOp.popHN (5/2 : Rat),
   BufOp.pushH 5, BufOp.resizeOp 1, BufOp.replaceAllOp [6, 7, 8]]

/-- A capacity-1 buffer over String holding one element. -/
def oneBufS1 : CircularBuffer String :=
  { buffer := [some "Z"], capacity := 1, logicalCapacity := 1
    size := 1, head := 0, tail := 0 }

/-! ### Generic list and modular-index helper lemmas -/

theorem getD_set_self {α : Type _} (l : List α) (i : Nat) (a d : α)
    (h : i < l.length) : (l.set i a).getD i d = a := by
  simp [List.getD, List.getElem?_set_self', List.getElem?_eq_getElem, h]

theorem getD_set_ne {α : Type _} (l : List α) (i j : Nat) (a d : α)
    (h : i ≠ j) : (l.set i a).getD j d = l.getD j d := by
  simp [List.getD, List.getElem?_set_ne h]

/-- Two circularly addressed offsets whose difference is strictly between
0 and the capacity land on different slots. -/
theorem idx_ne {cap h i j : Nat} (hij : i < j) (hd : j - i < cap) :
    (h + i) % cap ≠ (h + j) % cap := by
  intro he
  have hji : h + j = (h + i) + (j - i) := by omega
  have h2 : (h + i) + (j - i) ≡ (h + i) + 0 [MOD cap] := by
    simpa [hji] using he.symm
  have h3 : j - i ≡ 0 [MOD cap] := Nat.ModEq.add_left_cancel' (h + i) h2
  have h4 : cap ∣ (j - i) := (Nat.modEq_zero_iff_dvd).mp h3
  have h5 : j - i = 0 := Nat.eq_zero_of_dvd_of_lt h4 hd
  omega

theorem takeLast_length_le {α : Type _} {n : Nat} {l : List α}
    (h : l.length ≤ n) : takeLast n l = l := by
  unfold takeLast
  rw [Nat.sub_eq_zero_of_le h, List.drop_zero]

theorem takeLast_length {α : Type _} (n : Nat) (l : List α) :
    (takeLast n l).length = min n l.length := by
  unfold takeLast
  rw [List.length_drop]
  omega

theorem takeLast_append_right {α : Type _} {n : Nat} (a : List α) {c : List α}
    (h : c.length = n) : takeLast n (a ++ c) = c := by
  unfold takeLast
  rw [List.length_append, h, Nat.add_sub_cancel]
  exact List.drop_left a c

theorem takeLast_eq_drop {α : Type _} (n : Nat) (l : List α) :
    takeLast n l = l.drop (l.length - n) := rfl

/-- Dropping a prefix does not change the last n elements. -/
theorem takeLast_drop {α : Type _} (n k : Nat) (l : List α) (h : k ≤ l.length - n) :
    takeLast n (l.drop k) = takeLast n l := by
  unfold takeLast
  rw [List.drop_drop, List.length_drop]
  congr 1
  omega

theorem takeLast_takeLast_append {α : Type _} (n : Nat) (a c : List α) :
    takeLast n (takeLast n a ++ c) = takeLast n (a ++ c) := by
  rw [takeLast_eq_drop n a]
  rcases Nat.le_total a.length n with h | h
  · rw [Nat.sub_eq_zero_of_le h, List.drop_zero]
  · have hd : a.drop (a.length - n) ++ c = (a ++ c).drop (a.length - n) := by
      rw [List.drop_append_of_le_length (by omega)]
    rw [hd]
    apply takeLast_drop
    rw [List.length_append]
    omega

theorem takeLast_append_takeLast {α : Type _} (n : Nat) (a c : List α) :
    takeLast n (a ++ takeLast n c) = takeLast n (a ++ c) := by
  rcases Nat.le_total c.length n with h | h
  · rw [takeLast_length_le h]
  · have hlen : (takeLast n c).length = n := by rw [takeLast_length]; omega
    rw [takeLast_append_right a hlen, takeLast_eq_drop n c]
    have hd : (a ++ c).drop (a.length + (c.length - n)) = c.drop (c.length - n) :=
      List.drop_append (c.length - n)
    rw [← hd]
    unfold takeLast
    congr 1
    rw [List.length_append]
    omega

theorem take_append_take {α : Type _} (n : Nat) (a c : List α) :
    (a ++ c.take n).take n = (a ++ c).take n := by
  rw [List.take_append_eq_append_take, List.take_append_eq_append_take,
      List.take_take]
  have hmin : min (n - a.length) n = n - a.length := Nat.min_eq_left (by omega)
  rw [hmin]

theorem take_take_append {α : Type _} (n : Nat) (a c : List α) :
    (a.take n ++ c).take n = (a ++ c).take n := by
  rcases Nat.le_total a.length n with h | h
  · rw [List.take_of_length_le h]
  · have h1 : (a.take n ++ c).take n = a.take n :=
      List.take_left' (by rw [List.length_take]; exact Nat.min_eq_left h)
    have h2 : (a ++ c).take n = a.take n := by
      rw [List.take_append_eq_append_take]
      have hz : n - a.length = 0 := by omega
      rw [hz]
      simp
    rw [h1, h2]

theorem map_range_succ_last {α : Type _} (f : Nat → α) (n : Nat) :
    (List.range (n+1)).map f = (List.range n).map f ++ [f n] := by
  rw [List.range_succ, List.map_append]
  rfl

theorem map_range_succ_first {α : Type _} (f : Nat → α) (n : Nat) :
    (List.range (n+1)).map f = f 0 :: (List.range n).map (fun i => f (i+1)) := by
  rw [List.range_succ_eq_map]
  simp [List.map_map]

theorem dropLast_map_range {α : Type _} (f : Nat → α) (n : Nat) :
    ((List.range (n+1)).map f).dropLast = (List.range n).map f := by
  rw [map_range_succ_last]
  exact List.dropLast_concat

theorem getD_map_range {α : Type _} (f : Nat → α) (k i : Nat) (d : α) :
    ((List.range k).map f).getD i d = if i < k then f i else d := by
  by_cases h : i < k
  · have hi : i < ((List.range k).map f).length := by
      rw [List.length_map, List.length_range]; exact h
    simp [List.getD, List.getElem?_eq_getElem, hi, h]
  · have hi : ((List.range k).map f).length ≤ i := by
      rw [List.length_map, List.length_range]; omega
    simp [List.getD, List.getElem?_eq_none_iff.mpr hi, h]

theorem drop_map_range_add {α : Type _} (f : Nat → α) (j m : Nat) :
    ((List.range (j + m)).map f).drop j = (List.range m).map (fun i => f (j + i)) := by
  rw [List.range_add, List.map_append]
  have hlen : ((List.range j).map f).length = j := by
    rw [List.length_map, List.length_range]
  have hd : ((List.range j).map f ++ ((List.range m).map (fun x => j + x)).map f).drop j
      = ((List.range m).map (fun x => j + x)).map f := by
    have h0 := List.drop_left ((List.range j).map f) (((List.range m).map (fun x => j + x)).map f)
    rwa [hlen] at h0
  rw [hd, List.map_map]
  simp [Function.comp]

theorem drop_map_range {α : Type _} (f : Nat → α) {k j : Nat} (h : j ≤ k) :
    ((List.range k).map f).drop j = (List.range (k - j)).map (fun i => f (j + i)) := by
  have h2 := drop_map_range_add f j (k - j)
  rwa [Nat.add_sub_cancel' h] at h2

/-! ### Ring Store invariants and content characterization -/

namespace CircularBuffer

theorem mod_shift_add {cap : Nat} (x y : Nat) :
    ((x % cap) + y) % cap = (x + y) % cap :=
  Nat.mod_add_mod x cap y

theorem mod_sub_one_add {cap : Nat} (hc : 0 < cap) (x y : Nat) :
    ((x + cap - 1) % cap + y) % cap = (x + y + cap - 1) % cap := by
  rw [Nat.mod_add_mod]
  congr 1
  omega

theorem pred_mod_of_mod {cap : Nat} (hc : 0 < cap) (x : Nat) :
    ((x % cap) + cap - 1) % cap = (x + cap - 1) % cap := by
  have h1 : (x % cap) + cap - 1 = (x % cap) + (cap - 1) := by omega
  have h2 : x + cap - 1 = x + (cap - 1) := by omega
  rw [h1, h2, Nat.mod_add_mod]

theorem toList_length {T : Type} (b : CircularBuffer T) :
    b.toList.length = b.size := by
  simp [toList]

theorem push_logical {T : Type} (b : CircularBuffer T) (x : T) (d : Direction) :
    (b.push x d).logicalCapacity = b.logicalCapacity := by
  cases d <;> simp only [push] <;> split <;> rfl

theorem push_capacity {T : Type} (b : CircularBuffer T) (x : T) (d : Direction) :
    (b.push x d).capacity = b.capacity := by
  cases d <;> simp only [push] <;> split <;> rfl

theorem wf_push {T : Type} {b : CircularBuffer T} (hw : b.WF) (x : T)
    (d : Direction) : (b.push x d).WF := by
  obtain ⟨hlen, hlpos, hllc, hsl, hhl, htl⟩ := hw
  have hcpos : 0 < b.capacity := Nat.lt_of_lt_of_le hlpos hllc
  cases d
  case head =>
    simp only [push]
    split
    case isTrue hlt =>
      refine ⟨?_, hlpos, hllc, (show b.size + 1 ≤ b.logicalCapacity by omega), ?_, ?_⟩
      · simpa using hlen
      · exact Nat.mod_lt _ hcpos
      · show b.tail = ((b.head + b.capacity - 1) % b.capacity + (b.size + 1)) % b.capacity
        rw [mod_sub_one_add hcpos]
        have he : b.head + (b.size + 1) + b.capacity - 1 = (b.head + b.size) + b.capacity := by
          omega
        rw [he, Nat.add_mod_right, htl]
    case isFalse hge =>
      refine ⟨?_, hlpos, hllc, hsl, ?_, ?_⟩
      · simpa using hlen
      · exact Nat.mod_lt _ hcpos
      · show (b.tail + b.capacity - 1) % b.capacity
            = ((b.head + b.capacity - 1) % b.capacity + b.size) % b.capacity
        rw [mod_sub_one_add hcpos, htl, pred_mod_of_mod hcpos]
  case tail =>
    simp only [push]
    split
    case isTrue hlt =>
      refine ⟨?_, hlpos, hllc, (show b.size + 1 ≤ b.logicalCapacity by omega), hhl, ?_⟩
      · simpa using hlen
      · show (b.tail + 1) % b.capacity = (b.head + (b.size + 1)) % b.capacity
        rw [htl, mod_shift_add]
        congr 1
    case isFalse hge =>
      refine ⟨?_, hlpos, hllc, hsl, ?_, ?_⟩
      · simpa using hlen
      · exact Nat.mod_lt _ hcpos
      · show (b.tail + 1) % b.capacity = ((b.head + 1) % b.capacity + b.size) % b.capacity
        rw [htl, mod_shift_add, mod_shift_add]
        congr 1
        omega

end CircularBuffer

theorem take_map_range {α : Type _} (f : Nat → α) {n m : Nat} (h : n ≤ m) :
    ((List.range m).map f).take n = (List.range n).map f := by
  rw [← List.map_take, List.take_range, Nat.min_eq_left h]

namespace CircularBuffer

/-- Pushing to the tail appends the item and keeps the last
logicalCapacity elements of the visible sequence. -/
theorem toList_push_tail {T : Type} {b : CircularBuffer T} (hw : b.WF) (x : T) :
    (b.push x .tail).toList = takeLast b.logicalCapacity (b.toList ++ [some x]) := by
  obtain ⟨hlen, hlpos, hllc, hsl, hhl, htl⟩ := hw
  have hcpos : 0 < b.capacity := Nat.lt_of_lt_of_le hlpos hllc
  have htlt : b.tail < b.buffer.length := by
    rw [hlen, htl]; exact Nat.mod_lt _ hcpos
  have hlenapp : (b.toList ++ [some x]).length = b.size + 1 := by
    rw [List.length_append, toList_length]; rfl
  simp only [push]
  split
  case isTrue hlt =>
    show (List.range (b.size + 1)).map
        (fun i => (b.buffer.set b.tail (some x)).getD ((b.head + i) % b.capacity) none)
      = takeLast b.logicalCapacity (b.toList ++ [some x])
    rw [takeLast_length_le (by rw [hlenapp]; omega)]
    rw [map_range_succ_last]
    have hlast : (b.buffer.set b.tail (some x)).getD ((b.head + b.size) % b.capacity) none
        = some x := by
      rw [← htl]
      exact getD_set_self _ _ _ _ htlt
    have hrest : ∀ i ∈ List.range b.size,
        (b.buffer.set b.tail (some x)).getD ((b.head + i) % b.capacity) none
        = b.buffer.getD ((b.head + i) % b.capacity) none := by
      intro i hi
      have hi' := List.mem_range.mp hi
      apply getD_set_ne
      rw [htl]
      exact (idx_ne hi' (by omega)).symm
    rw [List.map_congr_left hrest, hlast]
    rfl
  case isFalse hge =>
    have hsize : b.size = b.logicalCapacity := Nat.le_antisymm hsl (Nat.le_of_not_lt hge)
    have hspos : 0 < b.size := by omega
    show (List.range b.size).map
        (fun i => (b.buffer.set b.tail (some x)).getD
          (((b.head + 1) % b.capacity + i) % b.capacity) none)
      = takeLast b.logicalCapacity (b.toList ++ [some x])
    have hrhs : takeLast b.logicalCapacity (b.toList ++ [some x])
        = b.toList.drop 1 ++ [some x] := by
      rw [takeLast_eq_drop, hlenapp, hsize]
      have h1 : b.logicalCapacity + 1 - b.logicalCapacity = 1 := by omega
      rw [h1, List.drop_append_of_le_length (by rw [toList_length]; omega)]
    rw [hrhs]
    have hdrop : b.toList.drop 1
        = (List.range (b.size - 1)).map
            (fun i => b.buffer.getD ((b.head + (1 + i)) % b.capacity) none) := by
      show ((List.range b.size).map
        (fun i => b.buffer.getD ((b.head + i) % b.capacity) none)).drop 1 = _
      rw [drop_map_range _ hspos]
    rw [hdrop]
    have hidx : ∀ i ∈ List.range b.size,
        (b.buffer.set b.tail (some x)).getD
          (((b.head + 1) % b.capacity + i) % b.capacity) none
        = (b.buffer.set b.tail (some x)).getD ((b.head + (1 + i)) % b.capacity) none := by
      intro i _
      rw [mod_shift_add]
      congr 2
      omega
    rw [List.map_congr_left hidx]
    obtain ⟨k, hk⟩ : ∃ k, b.size = k + 1 := ⟨b.size - 1, by omega⟩
    rw [hk, map_range_succ_last]
    have hlast : (b.buffer.set b.tail (some x)).getD ((b.head + (1 + k)) % b.capacity) none
        = some x := by
      have h1 : 1 + k = b.size := by omega
      rw [h1, ← htl]
      exact getD_set_self _ _ _ _ htlt
    have hrest : ∀ i ∈ List.range k,
        (b.buffer.set b.tail (some x)).getD ((b.head + (1 + i)) % b.capacity) none
        = b.buffer.getD ((b.head + (1 + i)) % b.capacity) none := by
      intro i hi
      have hi' := List.mem_range.mp hi
      apply getD_set_ne
      rw [htl]
      have h1 : 1 + i < b.size := by omega
      exact (idx_ne h1 (by omega)).symm
    rw [List.map_congr_left hrest, hlast, Nat.add_sub_cancel]

end CircularBuffer

namespace CircularBuffer

/-- Pushing to the head prepends the item and keeps the first
logicalCapacity elements of the visible sequence. -/
theorem toList_push_head {T : Type} {b : CircularBuffer T} (hw : b.WF) (x : T) :
    (b.push x .head).toList = (some x :: b.toList).take b.logicalCapacity := by
  obtain ⟨hlen, hlpos, hllc, hsl, hhl, htl⟩ := hw
  have hcpos : 0 < b.capacity := Nat.lt_of_lt_of_le hlpos hllc
  have hHlt : (b.head + b.capacity - 1) % b.capacity < b.capacity := Nat.mod_lt _ hcpos
  have hHlen : (b.head + b.capacity - 1) % b.capacity < b.buffer.length := by
    rw [hlen]; exact hHlt
  have hidx : ∀ i : Nat,
      ((b.head + b.capacity - 1) % b.capacity + (i + 1)) % b.capacity
      = (b.head + i) % b.capacity := by
    intro i
    rw [mod_shift_add]
    have he : b.head + b.capacity - 1 + (i + 1) = (b.head + i) + b.capacity := by omega
    rw [he, Nat.add_mod_right]
  have hfirst : (b.buffer.set ((b.head + b.capacity - 1) % b.capacity) (some x)).getD
      (((b.head + b.capacity - 1) % b.capacity + 0) % b.capacity) none = some x := by
    rw [Nat.add_zero, Nat.mod_eq_of_lt hHlt]
    exact getD_set_self _ _ _ _ hHlen
  have hne : ∀ i : Nat, i < b.capacity - 1 →
      (b.head + b.capacity - 1) % b.capacity ≠ (b.head + i) % b.capacity := by
    intro i hi
    have he : b.head + b.capacity - 1 = b.head + (b.capacity - 1) := by omega
    rw [he]
    exact (idx_ne hi (by omega)).symm
  simp only [push]
  split
  case isTrue hlt =>
    show (List.range (b.size + 1)).map
        (fun i => (b.buffer.set ((b.head + b.capacity - 1) % b.capacity) (some x)).getD
          (((b.head + b.capacity - 1) % b.capacity + i) % b.capacity) none)
      = (some x :: b.toList).take b.logicalCapacity
    rw [List.take_of_length_le
        (by rw [List.length_cons, toList_length]; omega)]
    rw [map_range_succ_first]
    rw [hfirst]
    have hrest : ∀ i ∈ List.range b.size,
        (b.buffer.set ((b.head + b.capacity - 1) % b.capacity) (some x)).getD
          (((b.head + b.capacity - 1) % b.capacity + (i + 1)) % b.capacity) none
        = b.buffer.getD ((b.head + i) % b.capacity) none := by
      intro i hi
      have hi' := List.mem_range.mp hi
      rw [hidx i]
      exact getD_set_ne _ _ _ _ _ (hne i (by omega))
    rw [List.map_congr_left hrest]
    rfl
  case isFalse hge =>
    have hsize : b.size = b.logicalCapacity := Nat.le_antisymm hsl (Nat.le_of_not_lt hge)
    obtain ⟨k, hk⟩ : ∃ k, b.size = k + 1 := ⟨b.size - 1, by omega⟩
    show (List.range b.size).map
        (fun i => (b.buffer.set ((b.head + b.capacity - 1) % b.capacity) (some x)).getD
          (((b.head + b.capacity - 1) % b.capacity + i) % b.capacity) none)
      = (some x :: b.toList).take b.logicalCapacity
    have hL : b.logicalCapacity = k + 1 := by omega
    rw [hL, List.take_succ_cons, hk, map_range_succ_first, hfirst]
    have hrest : ∀ i ∈ List.range k,
        (b.buffer.set ((b.head + b.capacity - 1) % b.capacity) (some x)).getD
          (((b.head + b.capacity - 1) % b.capacity + (i + 1)) % b.capacity) none
        = b.buffer.getD ((b.head + i) % b.capacity) none := by
      intro i hi
      have hi' := List.mem_range.mp hi
      rw [hidx i]
      exact getD_set_ne _ _ _ _ _ (hne i (by omega))
    rw [List.map_congr_left hrest]
    have htake : b.toList.take k = (List.range k).map
        (fun i => b.buffer.getD ((b.head + i) % b.capacity) none) := by
      show ((List.range b.size).map
        (fun i => b.buffer.getD ((b.head + i) % b.capacity) none)).take k = _
      exact take_map_range _ (by omega)
    rw [htake]

end CircularBuffer

theorem reverse_take_map_range {α : Type _} (f : Nat → α) {n k : Nat} (h : n ≤ k) :
    (((List.range k).map f).reverse).take n
    = (List.range n).map (fun i => f (k - 1 - i)) := by
  rw [← List.map_reverse, List.range_eq_range', List.reverse_range']
  rw [List.map_map]
  have h2 : ((List.range k).map (fun i => f (0 + k - 1 - i))).take n
      = (List.range n).map (fun i => f (0 + k - 1 - i)) := take_map_range _ h
  simp only [Nat.zero_add] at h2 ⊢
  exact h2

namespace CircularBuffer

theorem getD_toList {T : Type} (b : CircularBuffer T) (i : Nat) :
    b.toList.getD i none
    = if i < b.size then b.buffer.getD ((b.head + i) % b.capacity) none else none := by
  simp only [toList]
  exact getD_map_range _ _ _ _

end CircularBuffer

namespace CircularBuffer

theorem wf_pop {T : Type} {b : CircularBuffer T} (hw : b.WF) (d : Direction) :
    (b.pop d).2.WF := by
  obtain ⟨hlen, hlpos, hllc, hsl, hhl, htl⟩ := hw
  have hcpos : 0 < b.capacity := Nat.lt_of_lt_of_le hlpos hllc
  cases d with
  | head =>
    simp only [pop]
    by_cases h0 : b.size = 0
    · rw [if_pos h0]
      exact ⟨hlen, hlpos, hllc, hsl, hhl, htl⟩
    · rw [if_neg h0]
      have hspos : 0 < b.size := Nat.pos_of_ne_zero h0
      by_cases hs0 : b.size - 1 = 0
      · rw [if_pos hs0]
        exact ⟨by simpa using hlen, hlpos, hllc, Nat.zero_le _, hcpos, by simp⟩
      · rw [if_neg hs0]
        refine ⟨by simpa using hlen, hlpos, hllc,
          (show b.size - 1 ≤ b.logicalCapacity by omega), Nat.mod_lt _ hcpos, ?_⟩
        show b.tail = ((b.head + 1) % b.capacity + (b.size - 1)) % b.capacity
        rw [mod_shift_add, htl]
        congr 1
        omega
  | tail =>
    simp only [pop]
    by_cases h0 : b.size = 0
    · rw [if_pos h0]
      exact ⟨hlen, hlpos, hllc, hsl, hhl, htl⟩
    · rw [if_neg h0]
      have hspos : 0 < b.size := Nat.pos_of_ne_zero h0
      by_cases hs0 : b.size - 1 = 0
      · rw [if_pos hs0]
        exact ⟨by simpa using hlen, hlpos, hllc, Nat.zero_le _, hcpos, by simp⟩
      · rw [if_neg hs0]
        refine ⟨by simpa using hlen, hlpos, hllc,
          (show b.size - 1 ≤ b.logicalCapacity by omega), hhl, ?_⟩
        show (b.tail + b.capacity - 1) % b.capacity
            = (b.head + (b.size - 1)) % b.capacity
        rw [htl, pred_mod_of_mod hcpos]
        have he : b.head + b.size + b.capacity - 1 = (b.head + (b.size - 1)) + b.capacity := by
          omega
        rw [he, Nat.add_mod_right]

theorem pop_logical {T : Type} (b : CircularBuffer T) (d : Direction) :
    (b.pop d).2.logicalCapacity = b.logicalCapacity := by
  cases d <;> simp only [pop] <;> split <;> try rfl
  all_goals split <;> rfl

theorem pop_size {T : Type} (b : CircularBuffer T) (d : Direction) :
    (b.pop d).2.size = b.size - 1 := by
  cases d with
  | head =>
    simp only [pop]
    by_cases h0 : b.size = 0
    · rw [if_pos h0]
      show b.size = b.size - 1
      omega
    · rw [if_neg h0]
      by_cases hs0 : b.size - 1 = 0
      · rw [if_pos hs0]
        show (0 : Nat) = b.size - 1
        omega
      · rw [if_neg hs0]
  | tail =>
    simp only [pop]
    by_cases h0 : b.size = 0
    · rw [if_pos h0]
      show b.size = b.size - 1
      omega
    · rw [if_neg h0]
      by_cases hs0 : b.size - 1 = 0
      · rw [if_pos hs0]
        show (0 : Nat) = b.size - 1
        omega
      · rw [if_neg hs0]

theorem pop_head_val {T : Type} {b : CircularBuffer T} (hw : b.WF) :
    (b.pop .head).1 = b.toList.getD 0 none := by
  obtain ⟨hlen, hlpos, hllc, hsl, hhl, htl⟩ := hw
  simp only [pop]
  by_cases h0 : b.size = 0
  · rw [if_pos h0, getD_toList, if_neg (by omega)]
  · rw [if_neg h0]
    have hspos : 0 < b.size := Nat.pos_of_ne_zero h0
    have hv : b.toList.getD 0 none = b.buffer.getD b.head none := by
      rw [getD_toList, if_pos hspos, Nat.add_zero, Nat.mod_eq_of_lt hhl]
    rw [hv]
    by_cases hs0 : b.size - 1 = 0
    · rw [if_pos hs0]
    · rw [if_neg hs0]

theorem pop_tail_val {T : Type} {b : CircularBuffer T} (hw : b.WF) :
    (b.pop .tail).1 = b.toList.getD (b.size - 1) none := by
  obtain ⟨hlen, hlpos, hllc, hsl, hhl, htl⟩ := hw
  have hcpos : 0 < b.capacity := Nat.lt_of_lt_of_le hlpos hllc
  simp only [pop]
  by_cases h0 : b.size = 0
  · rw [if_pos h0, getD_toList, if_neg (by omega)]
  · rw [if_neg h0]
    have hspos : 0 < b.size := Nat.pos_of_ne_zero h0
    have hli : (b.tail + b.capacity - 1) % b.capacity
        = (b.head + (b.size - 1)) % b.capacity := by
      rw [htl, pred_mod_of_mod hcpos]
      have he : b.head + b.size + b.capacity - 1 = (b.head + (b.size - 1)) + b.capacity := by
        omega
      rw [he, Nat.add_mod_right]
    have hv : b.toList.getD (b.size - 1) none
        = b.buffer.getD ((b.tail + b.capacity - 1) % b.capacity) none := by
      rw [getD_toList, if_pos (by omega), hli]
    rw [hv]
    by_cases hs0 : b.size - 1 = 0
    · rw [if_pos hs0]
    · rw [if_neg hs0]

theorem pop_head_toList {T : Type} {b : CircularBuffer T} (hw : b.WF) :
    (b.pop .head).2.toList = b.toList.drop 1 := by
  obtain ⟨hlen, hlpos, hllc, hsl, hhl, htl⟩ := hw
  simp only [pop]
  by_cases h0 : b.size = 0
  · rw [if_pos h0]
    have hl : b.toList = [] := by simp [toList, h0]
    rw [hl]
    rfl
  · rw [if_neg h0]
    have hspos : 0 < b.size := Nat.pos_of_ne_zero h0
    have hrhs : b.toList.drop 1
        = (List.range (b.size - 1)).map
            (fun i => b.buffer.getD ((b.head + (1 + i)) % b.capacity) none) := by
      show ((List.range b.size).map
        (fun i => b.buffer.getD ((b.head + i) % b.capacity) none)).drop 1 = _
      rw [drop_map_range _ hspos]
    by_cases hs0 : b.size - 1 = 0
    · rw [if_pos hs0, hrhs, hs0]
      simp [toList]
    · rw [if_neg hs0, hrhs]
      show (List.range (b.size - 1)).map
          (fun i => (b.buffer.set b.head none).getD
            (((b.head + 1) % b.capacity + i) % b.capacity) none) = _
      apply List.map_congr_left
      intro i hi
      have hi' := List.mem_range.mp hi
      rw [mod_shift_add]
      have he : b.head + 1 + i = b.head + (1 + i) := by omega
      rw [he]
      apply getD_set_ne
      have hh : b.head = (b.head + 0) % b.capacity := by
        rw [Nat.add_zero, Nat.mod_eq_of_lt hhl]
      nth_rewrite 1 [hh]
      exact idx_ne (by omega) (by omega)

theorem pop_tail_toList {T : Type} {b : CircularBuffer T} (hw : b.WF) :
    (b.pop .tail).2.toList = b.toList.dropLast := by
  obtain ⟨hlen, hlpos, hllc, hsl, hhl, htl⟩ := hw
  have hcpos : 0 < b.capacity := Nat.lt_of_lt_of_le hlpos hllc
  simp only [pop]
  by_cases h0 : b.size = 0
  · rw [if_pos h0]
    have hl : b.toList = [] := by simp [toList, h0]
    rw [hl]
    rfl
  · rw [if_neg h0]
    have hspos : 0 < b.size := Nat.pos_of_ne_zero h0
    obtain ⟨k, hk⟩ : ∃ k, b.size = k + 1 := ⟨b.size - 1, by omega⟩
    have hrhs : b.toList.dropLast
        = (List.range k).map
            (fun i => b.buffer.getD ((b.head + i) % b.capacity) none) := by
      show ((List.range b.size).map
        (fun i => b.buffer.getD ((b.head + i) % b.capacity) none)).dropLast = _
      rw [hk, dropLast_map_range]
    have hli : (b.tail + b.capacity - 1) % b.capacity = (b.head + k) % b.capacity := by
      rw [htl, pred_mod_of_mod hcpos]
      have he : b.head + b.size + b.capacity - 1 = (b.head + k) + b.capacity := by omega
      rw [he, Nat.add_mod_right]
    by_cases hs0 : b.size - 1 = 0
    · rw [if_pos hs0, hrhs]
      have hk0 : k = 0 := by omega
      rw [hk0]
      simp [toList]
    · rw [if_neg hs0, hrhs]
      show (List.range (b.size - 1)).map
          (fun i => (b.buffer.set ((b.tail + b.capacity - 1) % b.capacity) none).getD
            ((b.head + i) % b.capacity) none) = _
      have hk1 : b.size - 1 = k := by omega
      rw [hk1]
      apply List.map_congr_left
      intro i hi
      have hi' := List.mem_range.mp hi
      rw [hli]
      apply getD_set_ne
      exact (idx_ne hi' (by omega)).symm

end CircularBuffer

namespace CircularBuffer

theorem wf_create {T : Type} {c : Int} {b : CircularBuffer T}
    (h : create T c = .ok b) : b.WF := by
  unfold create at h
  by_cases hc : c ≤ 0
  · rw [if_pos hc] at h
    cases h
  · rw [if_neg hc] at h
    have hb := Except.ok.inj h.symm
    have hpos : 0 < c.toNat := by omega
    subst hb
    exact ⟨by simp, hpos, Nat.le_refl _, Nat.zero_le _, hpos, by simp⟩

theorem toList_create {T : Type} {c : Int} {b : CircularBuffer T}
    (h : create T c = .ok b) : b.toList = [] := by
  unfold create at h
  by_cases hc : c ≤ 0
  · rw [if_pos hc] at h
    cases h
  · rw [if_neg hc] at h
    have hb := Except.ok.inj h.symm
    subst hb
    simp [toList]

theorem wf_clear {T : Type} {b : CircularBuffer T} (hw : b.WF) : b.clear.WF := by
  obtain ⟨hlen, hlpos, hllc, hsl, hhl, htl⟩ := hw
  have hcpos : 0 < b.capacity := Nat.lt_of_lt_of_le hlpos hllc
  exact ⟨by simp [clear], hlpos, hllc, Nat.zero_le _, hcpos, by simp [clear]⟩

theorem toList_clear {T : Type} (b : CircularBuffer T) : b.clear.toList = [] := by
  simp [clear, toList]

theorem clear_logical {T : Type} (b : CircularBuffer T) :
    b.clear.logicalCapacity = b.logicalCapacity := rfl

end CircularBuffer

namespace CircularBuffer

theorem resizeCore_logical {T : Type} (b : CircularBuffer T) (n : Nat) :
    (b.resizeCore n).logicalCapacity = n := by
  unfold resizeCore
  by_cases h1 : b.capacity < n
  · rw [if_pos h1]
  · rw [if_neg h1]
    by_cases h2 : n < b.size
    · rw [if_pos h2]
    · rw [if_neg h2]

theorem resizeCore_size {T : Type} {b : CircularBuffer T} (hw : b.WF) (n : Nat) :
    (b.resizeCore n).size = min b.size n := by
  obtain ⟨hlen, hlpos, hllc, hsl, hhl, htl⟩ := hw
  unfold resizeCore
  by_cases h1 : b.capacity < n
  · rw [if_pos h1]
    show b.size = min b.size n
    omega
  · rw [if_neg h1]
    by_cases h2 : n < b.size
    · rw [if_pos h2]
      show n = min b.size n
      omega
    · rw [if_neg h2]
      show b.size = min b.size n
      omega

theorem wf_resizeCore {T : Type} {b : CircularBuffer T} (hw : b.WF) {n : Nat}
    (hn : 0 < n) : (b.resizeCore n).WF := by
  obtain ⟨hlen, hlpos, hllc, hsl, hhl, htl⟩ := hw
  have hcpos : 0 < b.capacity := Nat.lt_of_lt_of_le hlpos hllc
  unfold resizeCore
  by_cases h1 : b.capacity < n
  · rw [if_pos h1]
    refine ⟨?_, hn, Nat.le_refl _, (show b.size ≤ n by omega), hn, ?_⟩
    · show ((List.range n).map _).length = n
      rw [List.length_map, List.length_range]
    · show b.size = (0 + b.size) % n
      rw [Nat.zero_add, Nat.mod_eq_of_lt (by omega)]
  · rw [if_neg h1]
    by_cases h2 : n < b.size
    · rw [if_pos h2]
      refine ⟨hlen, hn, (show n ≤ b.capacity by omega), Nat.le_refl _, Nat.mod_lt _ hcpos, ?_⟩
      show b.tail = ((b.head + (b.size - n)) % b.capacity + n) % b.capacity
      rw [mod_shift_add, htl]
      congr 1
      omega
    · rw [if_neg h2]
      exact ⟨hlen, hn, (show n ≤ b.capacity by omega), (show b.size ≤ n by omega), hhl, htl⟩

theorem toList_resizeCore_of_le {T : Type} {b : CircularBuffer T} (hw : b.WF)
    {n : Nat} (hn : b.size ≤ n) : (b.resizeCore n).toList = b.toList := by
  obtain ⟨hlen, hlpos, hllc, hsl, hhl, htl⟩ := hw
  unfold resizeCore
  by_cases h1 : b.capacity < n
  · rw [if_pos h1]
    show (List.range b.size).map
        (fun i => ((List.range n).map
          (fun i => if i < b.size then b.buffer.getD ((b.head + i) % b.capacity) none
                    else none)).getD ((0 + i) % n) none)
      = b.toList
    apply List.map_congr_left
    intro i hi
    have hi' := List.mem_range.mp hi
    have hin : i < n := by omega
    rw [Nat.zero_add, Nat.mod_eq_of_lt hin, getD_map_range, if_pos hin, if_pos hi']
  · rw [if_neg h1]
    by_cases h2 : n < b.size
    · omega
    · rw [if_neg h2]
      rfl

theorem toList_resizeCore_of_lt {T : Type} {b : CircularBuffer T} (hw : b.WF)
    {n : Nat} (hn : n < b.size) :
    (b.resizeCore n).toList = b.toList.drop (b.size - n) := by
  obtain ⟨hlen, hlpos, hllc, hsl, hhl, htl⟩ := hw
  unfold resizeCore
  have h1 : ¬ b.capacity < n := by omega
  rw [if_neg h1, if_pos hn]
  have hrhs : b.toList.drop (b.size - n)
      = (List.range n).map
          (fun i => b.buffer.getD ((b.head + ((b.size - n) + i)) % b.capacity) none) := by
    show ((List.range b.size).map
      (fun i => b.buffer.getD ((b.head + i) % b.capacity) none)).drop (b.size - n) = _
    rw [drop_map_range _ (by omega)]
    have he : b.size - (b.size - n) = n := by omega
    rw [he]
  rw [hrhs]
  show (List.range n).map
      (fun i => b.buffer.getD
        (((b.head + (b.size - n)) % b.capacity + i) % b.capacity) none)
    = _
  apply List.map_congr_left
  intro i hi
  rw [mod_shift_add, Nat.add_assoc]

end CircularBuffer

namespace CircularBuffer

theorem pushSeq_cons {T : Type} (b : CircularBuffer T) (x : T) (xs : List T)
    (d : Direction) : b.pushSeq (x :: xs) d = (b.push x d).pushSeq xs d := rfl

theorem pushSeq_logical {T : Type} (b : CircularBuffer T) (xs : List T)
    (d : Direction) : (b.pushSeq xs d).logicalCapacity = b.logicalCapacity := by
  induction xs generalizing b with
  | nil => rfl
  | cons x xs ih =>
    rw [pushSeq_cons, ih, push_logical]

theorem wf_pushSeq {T : Type} {b : CircularBuffer T} (hw : b.WF) (xs : List T)
    (d : Direction) : (b.pushSeq xs d).WF := by
  induction xs generalizing b with
  | nil => exact hw
  | cons x xs ih =>
    rw [pushSeq_cons]
    exact ih (wf_push hw x d)

theorem toList_pushSeq_tail {T : Type} {b : CircularBuffer T} (hw : b.WF)
    (xs : List T) :
    (b.pushSeq xs .tail).toList
    = takeLast b.logicalCapacity (b.toList ++ xs.map some) := by
  induction xs generalizing b with
  | nil =>
    obtain ⟨hlen, hlpos, hllc, hsl, hhl, htl⟩ := hw
    show b.toList = takeLast b.logicalCapacity (b.toList ++ [])
    rw [List.append_nil, takeLast_length_le (by rw [toList_length]; omega)]
  | cons x xs ih =>
    rw [pushSeq_cons, ih (wf_push hw x .tail), push_logical,
        toList_push_tail hw, takeLast_takeLast_append, List.append_assoc]
    rfl

theorem toList_pushSeq_head {T : Type} {b : CircularBuffer T} (hw : b.WF)
    (xs : List T) :
    (b.pushSeq xs .head).toList
    = ((xs.reverse.map some) ++ b.toList).take b.logicalCapacity := by
  induction xs generalizing b with
  | nil =>
    obtain ⟨hlen, hlpos, hllc, hsl, hhl, htl⟩ := hw
    show b.toList = (([] : List (Option T)) ++ b.toList).take b.logicalCapacity
    rw [List.nil_append, List.take_of_length_le (by rw [toList_length]; omega)]
  | cons x xs ih =>
    rw [pushSeq_cons, ih (wf_push hw x .head), push_logical,
        toList_push_head hw, take_append_take, List.reverse_cons, List.map_append]
    rw [List.append_assoc]
    rfl

end CircularBuffer

namespace CircularBuffer

theorem getManyHead_eq_take {T : Type} (b : CircularBuffer T) {n : Nat}
    (hn : n ≤ b.size) : b.getManyHead n = b.toList.take n := by
  show (List.range n).map (fun i => b.buffer.getD ((b.head + i) % b.capacity) none)
    = ((List.range b.size).map
        (fun i => b.buffer.getD ((b.head + i) % b.capacity) none)).take n
  exact (take_map_range _ hn).symm

theorem getManyTailAux_spec {T : Type} {b : CircularBuffer T}
    (hcpos : 0 < b.capacity) :
    ∀ (n s : Nat), n ≤ s + 1 →
    b.getManyTailAux ((b.head + s) % b.capacity) n
    = (List.range n).map (fun i => b.buffer.getD ((b.head + (s - i)) % b.capacity) none) := by
  intro n
  induction n with
  | zero =>
    intro s _
    simp [getManyTailAux]
  | succ n ih =>
    intro s h
    show b.buffer.getD ((b.head + s) % b.capacity) none
        :: b.getManyTailAux (((b.head + s) % b.capacity + b.capacity - 1) % b.capacity) n
      = _
    rw [map_range_succ_first]
    congr 1
    cases n with
    | zero => simp [getManyTailAux]
    | succ m =>
      have hs1 : 1 ≤ s := by omega
      have hidx : ((b.head + s) % b.capacity + b.capacity - 1) % b.capacity
          = (b.head + (s - 1)) % b.capacity := by
        rw [pred_mod_of_mod hcpos]
        have he : b.head + s + b.capacity - 1 = (b.head + (s - 1)) + b.capacity := by
          omega
        rw [he, Nat.add_mod_right]
      rw [hidx, ih (s - 1) (by omega)]
      apply List.map_congr_left
      intro i hi
      congr 2
      omega

theorem getManyTail_eq {T : Type} {b : CircularBuffer T} (hw : b.WF) {n : Nat}
    (hn : n ≤ b.size) : b.getManyTail n = b.toList.reverse.take n := by
  obtain ⟨hlen, hlpos, hllc, hsl, hhl, htl⟩ := hw
  have hcpos : 0 < b.capacity := Nat.lt_of_lt_of_le hlpos hllc
  cases n with
  | zero => simp [getManyTail, getManyTailAux]
  | succ m =>
    have hspos : 0 < b.size := by omega
    have hli : (b.tail + b.capacity - 1) % b.capacity
        = (b.head + (b.size - 1)) % b.capacity := by
      rw [htl, pred_mod_of_mod hcpos]
      have he : b.head + b.size + b.capacity - 1
          = (b.head + (b.size - 1)) + b.capacity := by omega
      rw [he, Nat.add_mod_right]
    show b.getManyTailAux ((b.tail + b.capacity - 1) % b.capacity) (m + 1)
      = b.toList.reverse.take (m + 1)
    rw [hli, getManyTailAux_spec hcpos (m + 1) (b.size - 1) (by omega)]
    have hr : b.toList.reverse.take (m + 1)
        = (List.range (m + 1)).map
            (fun i => b.buffer.getD ((b.head + (b.size - 1 - i)) % b.capacity) none) := by
      show (((List.range b.size).map
        (fun i => b.buffer.getD ((b.head + i) % b.capacity) none)).reverse).take (m + 1) = _
      exact reverse_take_map_range _ hn
    rw [hr]

theorem getManyHead_length {T : Type} (b : CircularBuffer T) (n : Nat) :
    (b.getManyHead n).length = n := by
  simp [getManyHead]

theorem getManyTailAux_length {T : Type} (b : CircularBuffer T) :
    ∀ (n idx : Nat), (b.getManyTailAux idx n).length = n := by
  intro n
  induction n with
  | zero => intro idx; rfl
  | succ m ih =>
    intro idx
    show (b.buffer.getD idx none
        :: b.getManyTailAux ((idx + b.capacity - 1) % b.capacity) m).length = m + 1
    rw [List.length_cons, ih]

theorem getManyTail_length {T : Type} (b : CircularBuffer T) (n : Nat) :
    (b.getManyTail n).length = n := getManyTailAux_length b n _

end CircularBuffer

namespace BufferManager

theorem popLoop_logical {T : Type} (d : Direction) :
    ∀ (n : Nat) (b : CircularBuffer T),
    (popLoop d n b).2.logicalCapacity = b.logicalCapacity := by
  intro n
  induction n with
  | zero => intro b; rfl
  | succ m ih =>
    intro b
    show (popLoop d m (b.pop d).2).2.logicalCapacity = b.logicalCapacity
    rw [ih, CircularBuffer.pop_logical]

theorem popLoop_head_spec {T : Type} :
    ∀ (n : Nat) (b : CircularBuffer T), b.WF → n ≤ b.size →
    (popLoop .head n b).1 = b.toList.take n
    ∧ (popLoop .head n b).2.toList = b.toList.drop n
    ∧ (popLoop .head n b).2.WF
    ∧ (popLoop .head n b).2.size = b.size - n := by
  intro n
  induction n with
  | zero =>
    intro b hw _
    exact ⟨rfl, rfl, hw, rfl⟩
  | succ m ih =>
    intro b hw hn
    have hspos : 0 < b.size := by omega
    have hw' := CircularBuffer.wf_pop hw .head
    have hsize' : (b.pop .head).2.size = b.size - 1 := CircularBuffer.pop_size b .head
    have hlist' := CircularBuffer.pop_head_toList hw
    have hval := CircularBuffer.pop_head_val hw
    have hm : m ≤ (b.pop .head).2.size := by omega
    obtain ⟨ih1, ih2, ih3, ih4⟩ := ih (b.pop .head).2 hw' hm
    have hcons : ∃ hd tl, b.toList = hd :: tl := by
      cases hl : b.toList with
      | nil =>
        have := CircularBuffer.toList_length b
        rw [hl] at this
        simp at this
        omega
      | cons hd tl => exact ⟨hd, tl, rfl⟩
    obtain ⟨hd, tl, hlst⟩ := hcons
    refine ⟨?_, ?_, ih3, ?_⟩
    · show (b.pop .head).1 :: (popLoop .head m (b.pop .head).2).1
        = b.toList.take (m + 1)
      rw [ih1, hval, hlist', hlst]
      rfl
    · show (popLoop .head m (b.pop .head).2).2.toList = b.toList.drop (m + 1)
      rw [ih2, hlist', hlst]
      rfl
    · show (popLoop .head m (b.pop .head).2).2.size = b.size - (m + 1)
      rw [ih4, hsize']
      omega

end BufferManager

namespace BufferManager

theorem popLoop_tail_spec {T : Type} :
    ∀ (n : Nat) (b : CircularBuffer T), b.WF → n ≤ b.size →
    (popLoop .tail n b).1 = b.toList.reverse.take n
    ∧ (popLoop .tail n b).2.toList = b.toList.take (b.size - n)
    ∧ (popLoop .tail n b).2.WF
    ∧ (popLoop .tail n b).2.size = b.size - n := by
  intro n
  induction n with
  | zero =>
    intro b hw _
    refine ⟨rfl, ?_, hw, rfl⟩
    show b.toList = b.toList.take (b.size - 0)
    rw [Nat.sub_zero,
        List.take_of_length_le (by rw [CircularBuffer.toList_length])]
  | succ m ih =>
    intro b hw hn
    have hspos : 0 < b.size := by omega
    have hw' := CircularBuffer.wf_pop hw .tail
    have hsize' : (b.pop .tail).2.size = b.size - 1 := CircularBuffer.pop_size b .tail
    have hlist' := CircularBuffer.pop_tail_toList hw
    have hval := CircularBuffer.pop_tail_val hw
    have hlen : b.toList.length = b.size := CircularBuffer.toList_length b
    have htake : b.toList.dropLast = b.toList.take (b.size - 1) := by
      rw [List.dropLast_eq_take, hlen]
    have hm : m ≤ (b.pop .tail).2.size := by omega
    obtain ⟨ih1, ih2, ih3, ih4⟩ := ih (b.pop .tail).2 hw' hm
    have hrevlen : b.toList.reverse.length = b.size := by
      rw [List.length_reverse, hlen]
    have hrev' : (b.pop .tail).2.toList.reverse = b.toList.reverse.drop 1 := by
      rw [hlist', htake, List.reverse_take]
      congr 1
      omega
    have hcons : ∃ a rs, b.toList.reverse = a :: rs := by
      cases hl : b.toList.reverse with
      | nil =>
        rw [hl] at hrevlen
        simp at hrevlen
        omega
      | cons a rs => exact ⟨a, rs, rfl⟩
    obtain ⟨a, rs, hr⟩ := hcons
    have hval0 : (b.pop .tail).1 = b.toList.reverse.getD 0 none := by
      rw [hval]
      have h1 : b.toList.getD (b.size - 1) none
          = b.buffer.getD ((b.head + (b.size - 1)) % b.capacity) none := by
        rw [CircularBuffer.getD_toList, if_pos (by omega)]
      have hrevmap : b.toList.reverse = (List.range b.size).map
          (fun i => b.buffer.getD ((b.head + (b.size - 1 - i)) % b.capacity) none) := by
        have h2 : (((List.range b.size).map
            (fun i => b.buffer.getD ((b.head + i) % b.capacity) none)).reverse).take b.size
            = (List.range b.size).map
              (fun i => b.buffer.getD ((b.head + (b.size - 1 - i)) % b.capacity) none) :=
          reverse_take_map_range _ (Nat.le_refl _)
        rw [List.take_of_length_le (by rw [List.length_reverse, List.length_map, List.length_range])] at h2
        exact h2
      rw [h1, hrevmap, getD_map_range, if_pos hspos]
      rfl
    refine ⟨?_, ?_, ih3, ?_⟩
    · show (b.pop .tail).1 :: (popLoop .tail m (b.pop .tail).2).1
        = b.toList.reverse.take (m + 1)
      rw [ih1, hval0, hrev', hr]
      rfl
    · show (popLoop .tail m (b.pop .tail).2).2.toList = b.toList.take (b.size - (m + 1))
      rw [ih2, hsize', hlist', htake, List.take_take]
      congr 1
      omega
    · show (popLoop .tail m (b.pop .tail).2).2.size = b.size - (m + 1)
      rw [ih4, hsize']
      omega

end BufferManager

namespace BufferManager

theorem getAll_pushTailMany {T : Type} {m : BufferManager T} (hw : m.buffer.WF)
    (xs : List T) :
    (m.pushTailMany xs).getAll = takeLast m.capacity (m.getAll ++ xs.map some) := by
  show (m.buffer.pushSeq
      (if m.buffer.logicalCapacity < xs.length
        then xs.drop (xs.length - m.buffer.logicalCapacity) else xs) .tail).toList
    = takeLast m.buffer.logicalCapacity (m.buffer.toList ++ xs.map some)
  rw [CircularBuffer.toList_pushSeq_tail hw]
  by_cases h : m.buffer.logicalCapacity < xs.length
  · rw [if_pos h, List.map_drop]
    have hx : (xs.map some).drop (xs.length - m.buffer.logicalCapacity)
        = takeLast m.buffer.logicalCapacity (xs.map some) := by
      rw [takeLast_eq_drop, List.length_map]
    rw [hx, takeLast_append_takeLast]
  · rw [if_neg h]

theorem getAll_pushHeadMany {T : Type} {m : BufferManager T} (hw : m.buffer.WF)
    (xs : List T) :
    (m.pushHeadMany xs).getAll = ((xs.map some) ++ m.getAll).take m.capacity := by
  show (m.buffer.pushSeq
      ((if m.buffer.logicalCapacity < xs.length
        then xs.take m.buffer.logicalCapacity else xs).reverse) .head).toList
    = ((xs.map some) ++ m.buffer.toList).take m.buffer.logicalCapacity
  rw [CircularBuffer.toList_pushSeq_head hw, List.reverse_reverse]
  by_cases h : m.buffer.logicalCapacity < xs.length
  · rw [if_pos h, List.map_take, take_take_append]
  · rw [if_neg h]

theorem wf_apply {T : Type} {m : BufferManager T} (hw : m.buffer.WF)
    (op : BufOp T) : (op.apply m).buffer.WF := by
  cases op with
  | pushH x => exact CircularBuffer.wf_push hw x .head
  | pushT x => exact CircularBuffer.wf_push hw x .tail
  | pushHeadM xs => exact CircularBuffer.wf_pushSeq hw _ .head
  | pushTailM xs => exact CircularBuffer.wf_pushSeq hw _ .tail
  | popH => exact CircularBuffer.wf_pop hw .head
  | popT => exact CircularBuffer.wf_pop hw .tail
  | popHN c =>
    exact (popLoop_head_spec _ m.buffer hw (Nat.min_le_right _ _)).2.2.1
  | popTN c =>
    exact (popLoop_tail_spec _ m.buffer hw (Nat.min_le_right _ _)).2.2.1
  | getH c => exact hw
  | getT c => exact hw
  | clearOp => exact CircularBuffer.wf_clear hw
  | resizeOp c =>
    show (match m.buffer.resize c with
      | .ok b => (⟨b⟩ : BufferManager T)
      | .error _ => m).buffer.WF
    unfold CircularBuffer.resize
    by_cases hc : c ≤ 0
    · rw [if_pos hc]
      exact hw
    · rw [if_neg hc]
      exact CircularBuffer.wf_resizeCore hw (by omega)
  | replaceAllOp xs =>
    exact CircularBuffer.wf_pushSeq (CircularBuffer.wf_clear hw) _ .tail

theorem wf_applyAll {T : Type} {m : BufferManager T} (hw : m.buffer.WF)
    (ops : List (BufOp T)) : (BufOp.applyAll m ops).buffer.WF := by
  induction ops generalizing m with
  | nil => exact hw
  | cons op ops ih => exact ih (wf_apply hw op)

end BufferManager

/-! ### Claim theorems -/

/-- C1: Overflow eviction at logical capacity: on a well-formed buffer
whose size equals its logical capacity, a push to the tail (NEWEST_SIDE)
makes the new item newest and evicts the oldest element, and a push to the
head (OLDEST_SIDE) makes the new item oldest and evicts the newest
element; concretely, with capacity 3, pushing A,B,C,D to the tail leaves
[B,C,D] and pushing A,B,C to the tail then D to the head leaves [D,A,B]. -/
theorem claim_C1_overflow_eviction :
    (∀ (T : Type) (b : CircularBuffer T) (x : T), b.WF →
      b.size = b.logicalCapacity →
      (b.push x .tail).toList = b.toList.drop 1 ++ [some x]
      ∧ (b.push x .head).toList = some x :: b.toList.dropLast)
    ∧ (CircularBuffer.create String 3).map (fun b =>
        ((((b.push "A" .tail).push "B" .tail).push "C" .tail).push "D" .tail).toList)
      = .ok [some "B", some "C", some "D"]
    ∧ (CircularBuffer.create String 3).map (fun b =>
        ((((b.push "A" .tail).push "B" .tail).push "C" .tail).push "D" .head).toList)
      = .ok [some "D", some "A", some "B"] := by
  refine ⟨?_, by rfl, by rfl⟩
  intro T b x hw hfull
  have hw' := hw
  obtain ⟨hlen, hlpos, hllc, hsl, hhl, htl⟩ := hw'
  have hlenl : b.toList.length = b.logicalCapacity := by
    rw [CircularBuffer.toList_length, hfull]
  constructor
  · rw [CircularBuffer.toList_push_tail hw, takeLast_eq_drop]
    have h1 : (b.toList ++ [some x]).length - b.logicalCapacity = 1 := by
      rw [List.length_append, hlenl]
      simp
    rw [h1, List.drop_append_of_le_length (by omega)]
  · rw [CircularBuffer.toList_push_head hw]
    obtain ⟨k, hk⟩ : ∃ k, b.logicalCapacity = k + 1 := ⟨b.logicalCapacity - 1, by omega⟩
    rw [hk, List.take_succ_cons]
    congr 1
    rw [List.dropLast_eq_take, hlenl, hk]
    simp

/-- Witness for C1 at a concrete full capacity-3 buffer. -/
theorem claim_C1_witness :
    (fullBufS3.WF ∧ fullBufS3.size = fullBufS3.logicalCapacity)
    ∧ ((fullBufS3.push "D" .tail).toList = fullBufS3.toList.drop 1 ++ [some "D"]
       ∧ (fullBufS3.push "D" .head).toList = some "D" :: fullBufS3.toList.dropLast) :=
  ⟨⟨by decide, by decide⟩,
    claim_C1_overflow_eviction.1 String fullBufS3 "D" (by decide) (by decide)⟩

/-- C2: Capacity invariant: starting from a freshly constructed facade,
after any sequence of operations (single or bulk pushes and pops on either
side, peeks, clear, resize, replaceAll), 0 <= size() <= capacity(). -/
theorem claim_C2_capacity_invariant :
    ∀ (T : Type) (c : Int) (m₀ : BufferManager T),
    BufferManager.create T c = .ok m₀ →
    ∀ ops : List (BufOp T),
    0 ≤ (BufOp.applyAll m₀ ops).size
    ∧ (BufOp.applyAll m₀ ops).size ≤ (BufOp.applyAll m₀ ops).capacity := by
  intro T c m₀ h ops
  have hwf0 : m₀.buffer.WF := by
    unfold BufferManager.create at h
    cases hc : CircularBuffer.create T c with
    | error e =>
      rw [hc] at h
      cases h
    | ok b =>
      rw [hc] at h
      have hb := Except.ok.inj h
      rw [← hb]
      exact CircularBuffer.wf_create hc
  have hwf := BufferManager.wf_applyAll hwf0 ops
  obtain ⟨hlen, hlpos, hllc, hsl, hhl, htl⟩ := hwf
  exact ⟨Nat.zero_le _, hsl⟩

/-- Witness for C2 at a concrete capacity-2 buffer with a mixed sequence
of operations. -/
theorem claim_C2_witness :
    BufferManager.create Nat 2 = .ok wM2
    ∧ (0 ≤ (BufOp.applyAll wM2 wOps).size
       ∧ (BufOp.applyAll wM2 wOps).size ≤ (BufOp.applyAll wM2 wOps).capacity) :=
  ⟨by rfl, claim_C2_capacity_invariant Nat 2 wM2 (by rfl) wOps⟩


theorem takeLast_append_of_le {α : Type _} {n : Nat} (a : List α) {c : List α}
    (h : n ≤ c.length) : takeLast n (a ++ c) = takeLast n c := by
  unfold takeLast
  rw [List.length_append]
  have he : a.length + c.length - n = a.length + (c.length - n) := by omega
  rw [he, List.drop_append]

theorem takeLast_map {α β : Type _} (f : α → β) (n : Nat) (l : List α) :
    takeLast n (l.map f) = (takeLast n l).map f := by
  unfold takeLast
  rw [List.length_map, List.map_drop]

/-- C3: Bulk push truncation and order preservation: for an input longer
than the logical capacity, pushTail keeps exactly the last capacity input
elements in order and pushHead keeps exactly the first capacity input
elements in order; concretely, into a fresh capacity-3 buffer,
pushTail [A,B,C,D,E] yields [C,D,E] and pushHead [A,B,C,D,E] yields
[A,B,C], oldest to newest. -/
theorem claim_C3_bulk_truncation :
    (∀ (T : Type) (m : BufferManager T) (xs : List T), m.buffer.WF →
      m.capacity < xs.length →
      (m.pushTailMany xs).getAll = (takeLast m.capacity xs).map some
      ∧ (m.pushHeadMany xs).getAll = (xs.take m.capacity).map some)
    ∧ (BufferManager.create String 3).map
        (fun m => (m.pushTailMany ["A", "B", "C", "D", "E"]).getAll)
      = .ok [some "C", some "D", some "E"]
    ∧ (BufferManager.create String 3).map
        (fun m => (m.pushHeadMany ["A", "B", "C", "D", "E"]).getAll)
      = .ok [some "A", some "B", some "C"] := by
  refine ⟨?_, by rfl, by rfl⟩
  intro T m xs hw hlong
  constructor
  · rw [BufferManager.getAll_pushTailMany hw,
        takeLast_append_of_le _ (by rw [List.length_map]; omega),
        takeLast_map]
  · rw [BufferManager.getAll_pushHeadMany hw,
        List.take_append_of_le_length (by rw [List.length_map]; omega),
        ← List.map_take]

/-- Witness for C3: a concrete full capacity-3 buffer receiving a
5-element bulk push on each side. -/
theorem claim_C3_witness :
    ((⟨fullBufS3⟩ : BufferManager String).buffer.WF
     ∧ (⟨fullBufS3⟩ : BufferManager String).capacity < (["V", "W", "X", "Y", "Z"] : List String).length)
    ∧ ((⟨fullBufS3⟩ : BufferManager String).pushTailMany ["V", "W", "X", "Y", "Z"]).getAll
        = (takeLast (⟨fullBufS3⟩ : BufferManager String).capacity ["V", "W", "X", "Y", "Z"]).map some
    ∧ ((⟨fullBufS3⟩ : BufferManager String).pushHeadMany ["V", "W", "X", "Y", "Z"]).getAll
        = ((["V", "W", "X", "Y", "Z"] : List String).take (⟨fullBufS3⟩ : BufferManager String).capacity).map some :=
  ⟨⟨by decide, by decide⟩,
    (claim_C3_bulk_truncation.1 String ⟨fullBufS3⟩ ["V", "W", "X", "Y", "Z"]
      (by decide) (by decide)).1,
    (claim_C3_bulk_truncation.1 String ⟨fullBufS3⟩ ["V", "W", "X", "Y", "Z"]
      (by decide) (by decide)).2⟩

/-- C4: Bulk push equals naive one-by-one insertion: from any well-formed
state and for any input length, pushTail(seq) leaves the same visible
contents as pushing each element of seq to the newest side one at a time
with no pre-truncation, and pushHead(seq) the same contents as pushing the
elements of seq in reverse order to the oldest side one at a time. -/
theorem claim_C4_bulk_equals_one_by_one :
    ∀ (T : Type) (m : BufferManager T) (xs : List T), m.buffer.WF →
    (m.pushTailMany xs).getAll = (m.buffer.pushSeq xs .tail).toList
    ∧ (m.pushHeadMany xs).getAll = (m.buffer.pushSeq xs.reverse .head).toList := by
  intro T m xs hw
  constructor
  · rw [BufferManager.getAll_pushTailMany hw,
        CircularBuffer.toList_pushSeq_tail hw]
    rfl
  · rw [BufferManager.getAll_pushHeadMany hw,
        CircularBuffer.toList_pushSeq_head hw, List.reverse_reverse]
    rfl

/-- Witness for C4 at a concrete full capacity-3 buffer and an oversized
input. -/
theorem claim_C4_witness :
    (⟨fullBufS3⟩ : BufferManager String).buffer.WF
    ∧ ((⟨fullBufS3⟩ : BufferManager String).pushTailMany ["V", "W", "X", "Y"]).getAll
        = (fullBufS3.pushSeq ["V", "W", "X", "Y"] .tail).toList
    ∧ ((⟨fullBufS3⟩ : BufferManager String).pushHeadMany ["V", "W", "X", "Y"]).getAll
        = (fullBufS3.pushSeq (["V", "W", "X", "Y"] : List String).reverse .head).toList :=
  ⟨by decide,
    (claim_C4_bulk_equals_one_by_one String ⟨fullBufS3⟩ ["V", "W", "X", "Y"] (by decide)).1,
    (claim_C4_bulk_equals_one_by_one String ⟨fullBufS3⟩ ["V", "W", "X", "Y"] (by decide)).2⟩

/-- C5: Resize content semantics: for newCapacity >= 1, resize succeeds;
if newCapacity >= size the visible contents are unchanged, if
newCapacity < size exactly the oldest size - newCapacity elements are
discarded, and the logical capacity becomes newCapacity; concretely
[1,2,3] at capacity 3 resized to 5 and back to 3 is unchanged with
capacity and available tracking, and [1,2,3,4,5] at capacity 5 resized to
3 becomes [3,4,5]. -/
theorem claim_C5_resize :
    (∀ (T : Type) (b : CircularBuffer T) (n : Nat), b.WF → 1 ≤ n →
      b.resize (n : Int) = .ok (b.resizeCore n)
      ∧ (b.size ≤ n → (b.resizeCore n).toList = b.toList)
      ∧ (n < b.size → (b.resizeCore n).toList = b.toList.drop (b.size - n))
      ∧ (b.resizeCore n).logicalCapacity = n)
    ∧ (BufferManager.create Nat 3).map (fun m =>
        ((⟨(m.pushTailMany [1, 2, 3]).buffer.resizeCore 5⟩ : BufferManager Nat).getAll,
         (⟨(m.pushTailMany [1, 2, 3]).buffer.resizeCore 5⟩ : BufferManager Nat).capacity,
         (⟨(m.pushTailMany [1, 2, 3]).buffer.resizeCore 5⟩ : BufferManager Nat).available,
         (⟨((m.pushTailMany [1, 2, 3]).buffer.resizeCore 5).resizeCore 3⟩ : BufferManager Nat).getAll,
         (⟨((m.pushTailMany [1, 2, 3]).buffer.resizeCore 5).resizeCore 3⟩ : BufferManager Nat).capacity))
      = .ok ([some 1, some 2, some 3], 5, 2, [some 1, some 2, some 3], 3)
    ∧ (BufferManager.create Nat 5).map (fun m =>
        (⟨(m.pushTailMany [1, 2, 3, 4, 5]).buffer.resizeCore 3⟩ : BufferManager Nat).getAll)
      = .ok [some 3, some 4, some 5] := by
  refine ⟨?_, by rfl, by rfl⟩
  intro T b n hw hn
  refine ⟨?_, fun h => CircularBuffer.toList_resizeCore_of_le hw h,
    fun h => CircularBuffer.toList_resizeCore_of_lt hw h,
    CircularBuffer.resizeCore_logical b n⟩
  unfold CircularBuffer.resize
  rw [if_neg (by omega)]
  congr 1

/-- Witness for C5: resizing a concrete full capacity-3 buffer up to 5
and down to 2. -/
theorem claim_C5_witness :
    (fullBufS3.WF ∧ (1 : Nat) ≤ 5 ∧ (1 : Nat) ≤ 2)
    ∧ (fullBufS3.resize ((5 : Nat) : Int) = .ok (fullBufS3.resizeCore 5)
       ∧ (fullBufS3.size ≤ 5 → (fullBufS3.resizeCore 5).toList = fullBufS3.toList))
    ∧ ((2 < fullBufS3.size →
        (fullBufS3.resizeCore 2).toList = fullBufS3.toList.drop (fullBufS3.size - 2))
       ∧ (fullBufS3.resizeCore 2).logicalCapacity = 2) :=
  ⟨⟨by decide, by decide, by decide⟩,
    ⟨(claim_C5_resize.1 String fullBufS3 5 (by decide) (by decide)).1,
     (claim_C5_resize.1 String fullBufS3 5 (by decide) (by decide)).2.1⟩,
    ⟨(claim_C5_resize.1 String fullBufS3 2 (by decide) (by decide)).2.2.1,
     (claim_C5_resize.1 String fullBufS3 2 (by decide) (by decide)).2.2.2⟩⟩

/-- C6 counterexample: on the empty buffer, pop and get with a direction
value outside the enumeration do not raise InvalidDirection — the size-0
early return fires first and yields undefined / [], refuting the claim
that every buffer state raises. -/
theorem claim_C6_counterexample :
    CircularBuffer.create String 1 = .ok emptyBufS1
    ∧ ("x" ≠ Direction.headString ∧ "x" ≠ Direction.tailString)
    ∧ emptyBufS1.popRaw "x" = .ok (none, emptyBufS1)
    ∧ emptyBufS1.getRaw "x" none = .ok (.single none)
    ∧ emptyBufS1.getRaw "x" (some 3) = .ok (.many [])
    ∧ emptyBufS1.popRaw "x" ≠ .error .invalidDirection := by
  refine ⟨by rfl, ⟨by decide, by decide⟩, by rfl, by rfl, by rfl, ?_⟩
  intro h
  exact Except.noConfusion h

/-- C6 amended: push raises InvalidDirection for every state and
out-of-enumeration direction; pop and single get raise it exactly when the
buffer is nonempty (on the empty buffer they return undefined first), and
counted get raises it exactly when the buffer is nonempty and the clamped
count is at least 1 (otherwise it returns [] first). -/
theorem claim_C6_amended :
    ∀ (T : Type) (b : CircularBuffer T) (x : T) (d : String) (c : Rat),
    d ≠ Direction.headString → d ≠ Direction.tailString →
    b.pushRaw x d = .error .invalidDirection
    ∧ (0 < b.size → b.popRaw d = .error .invalidDirection)
    ∧ (0 < b.size → b.getRaw d none = .error .invalidDirection)
    ∧ (0 < b.size → 1 ≤ b.clampCount c → b.getRaw d (some c) = .error .invalidDirection)
    ∧ (b.size = 0 →
        b.popRaw d = .ok (none, b)
        ∧ b.getRaw d none = .ok (.single none)
        ∧ b.getRaw d (some c) = .ok (.many []))
    ∧ (0 < b.size → b.clampCount c = 0 → b.getRaw d (some c) = .ok (.many [])) := by
  intro T b x d c hd1 hd2
  refine ⟨?_, ?_, ?_, ?_, ?_, ?_⟩
  · unfold CircularBuffer.pushRaw
    rw [if_neg hd1, if_neg hd2]
  · intro hs
    unfold CircularBuffer.popRaw
    rw [if_neg (by omega), if_neg hd1, if_neg hd2]
  · intro hs
    simp only [CircularBuffer.getRaw]
    rw [if_neg (by omega), if_neg hd1, if_neg hd2]
  · intro hs hc
    simp only [CircularBuffer.getRaw]
    rw [if_neg (by omega), if_neg (by omega), if_neg hd1, if_neg hd2]
  · intro hs
    refine ⟨?_, ?_, ?_⟩
    · unfold CircularBuffer.popRaw
      rw [if_pos hs]
    · simp only [CircularBuffer.getRaw]
      rw [if_pos hs]
    · simp only [CircularBuffer.getRaw]
      rw [if_pos hs]
  · intro hs hc
    simp only [CircularBuffer.getRaw]
    rw [if_neg (by omega), if_pos hc]

/-- Witness for the amended C6 at a concrete nonempty buffer and the
out-of-enumeration direction value "diag". -/
theorem claim_C6_amended_witness :
    ("diag" ≠ Direction.headString ∧ "diag" ≠ Direction.tailString)
    ∧ (fullBufS3.pushRaw "Q" "diag" = .error .invalidDirection
       ∧ (0 < fullBufS3.size → fullBufS3.popRaw "diag" = .error .invalidDirection)
       ∧ (0 < fullBufS3.size → fullBufS3.getRaw "diag" none = .error .invalidDirection)
       ∧ (0 < fullBufS3.size → 1 ≤ fullBufS3.clampCount 2 →
            fullBufS3.getRaw "diag" (some 2) = .error .invalidDirection)
       ∧ (fullBufS3.size = 0 →
            fullBufS3.popRaw "diag" = .ok (none, fullBufS3)
            ∧ fullBufS3.getRaw "diag" none = .ok (.single none)
            ∧ fullBufS3.getRaw "diag" (some 2) = .ok (.many []))
       ∧ (0 < fullBufS3.size → fullBufS3.clampCount 2 = 0 →
            fullBufS3.getRaw "diag" (some 2) = .ok (.many []))) :=
  ⟨⟨by decide, by decide⟩,
    claim_C6_amended String fullBufS3 "Q" "diag" 2 (by decide) (by decide)⟩

/-- Rat.floor agrees with the floor of the FloorRing instance. -/
theorem rat_floor_eq (q : Rat) : Rat.floor q = ⌊q⌋ := by
  rw [Rat.floor_def, Rat.floor_def']

/-- C7: Boundary conditions never raise with a valid direction: pop and
get on an empty buffer return undefined (single) or [] (counted); a
counted get or pop with count <= 0 returns []; a count exceeding the size
is clamped to the size; and the counted results are oldest-to-newer on the
head side and newest-to-older on the tail side. -/
theorem claim_C7_boundaries_never_raise :
    ∀ (T : Type) (b : CircularBuffer T) (c : Rat),
    (b.size = 0 →
      b.popRaw Direction.headString = .ok (none, b)
      ∧ b.popRaw Direction.tailString = .ok (none, b)
      ∧ b.getRaw Direction.headString none = .ok (.single none)
      ∧ b.getRaw Direction.tailString none = .ok (.single none)
      ∧ b.getRaw Direction.headString (some c) = .ok (.many [])
      ∧ b.getRaw Direction.tailString (some c) = .ok (.many []))
    ∧ (c ≤ 0 →
      b.getRaw Direction.headString (some c) = .ok (.many [])
      ∧ b.getRaw Direction.tailString (some c) = .ok (.many [])
      ∧ ((⟨b⟩ : BufferManager T).popHeadN c).1 = []
      ∧ ((⟨b⟩ : BufferManager T).popTailN c).1 = [])
    ∧ (b.WF →
      b.clampCount c ≤ b.size
      ∧ (b.size ≤ (Rat.floor c).toNat → b.clampCount c = b.size)
      ∧ (0 < b.size →
          b.getRaw Direction.headString (some c)
            = .ok (.many (b.toList.take (b.clampCount c)))
          ∧ b.getRaw Direction.tailString (some c)
            = .ok (.many (b.toList.reverse.take (b.clampCount c))))
      ∧ ((⟨b⟩ : BufferManager T).popHeadN c).1 = b.toList.take (b.clampCount c)
      ∧ ((⟨b⟩ : BufferManager T).popTailN c).1
          = b.toList.reverse.take (b.clampCount c)) := by
  intro T b c
  refine ⟨?_, ?_, ?_⟩
  · intro hs
    refine ⟨?_, ?_, ?_, ?_, ?_, ?_⟩
    · unfold CircularBuffer.popRaw
      rw [if_pos hs]
    · unfold CircularBuffer.popRaw
      rw [if_pos hs]
    · simp only [CircularBuffer.getRaw]
      rw [if_pos hs]
    · simp only [CircularBuffer.getRaw]
      rw [if_pos hs]
    · simp only [CircularBuffer.getRaw]
      rw [if_pos hs]
    · simp only [CircularBuffer.getRaw]
      rw [if_pos hs]
  · intro hc
    have hf : (Rat.floor c).toNat = 0 := by
      rw [rat_floor_eq]
      have h0 : ⌊c⌋ ≤ 0 := by
        have := Int.floor_le_floor (α := ℚ) hc
        simpa using this
      omega
    have hc0 : b.clampCount c = 0 := by
      unfold CircularBuffer.clampCount
      rw [hf]
      simp
    refine ⟨?_, ?_, ?_, ?_⟩
    · by_cases hs : b.size = 0
      · simp only [CircularBuffer.getRaw]
        rw [if_pos hs]
      · simp only [CircularBuffer.getRaw]
        rw [if_neg hs, if_pos hc0]
    · by_cases hs : b.size = 0
      · simp only [CircularBuffer.getRaw]
        rw [if_pos hs]
      · simp only [CircularBuffer.getRaw]
        rw [if_neg hs, if_pos hc0]
    · show (BufferManager.popLoop .head (min (Rat.floor c).toNat b.size) b).1 = []
      rw [hf, Nat.zero_min]
      rfl
    · show (BufferManager.popLoop .tail (min (Rat.floor c).toNat b.size) b).1 = []
      rw [hf, Nat.zero_min]
      rfl
  · intro hw
    have hclamp : b.clampCount c ≤ b.size := Nat.min_le_right _ _
    refine ⟨hclamp, ?_, ?_, ?_, ?_⟩
    · intro hge
      unfold CircularBuffer.clampCount
      omega
    · intro hs
      constructor
      · simp only [CircularBuffer.getRaw]
        rw [if_neg (by omega)]
        by_cases hn : b.clampCount c = 0
        · rw [if_pos hn, hn]
          rfl
        · rw [if_neg hn, if_pos trivial,
              CircularBuffer.getManyHead_eq_take b hclamp]
      · simp only [CircularBuffer.getRaw]
        rw [if_neg (by omega)]
        by_cases hn : b.clampCount c = 0
        · rw [if_pos hn, hn]
          rfl
        · rw [if_neg hn, if_pos trivial,
              CircularBuffer.getManyTail_eq hw hclamp, if_neg (by decide)]
    · show (BufferManager.popLoop .head (min (Rat.floor c).toNat b.size) b).1
        = b.toList.take (b.clampCount c)
      exact (BufferManager.popLoop_head_spec _ b hw (Nat.min_le_right _ _)).1
    · show (BufferManager.popLoop .tail (min (Rat.floor c).toNat b.size) b).1
        = b.toList.reverse.take (b.clampCount c)
      exact (BufferManager.popLoop_tail_spec _ b hw (Nat.min_le_right _ _)).1

/-- Witness for C7: the clamping and ordering part at a concrete full
capacity-3 buffer with the fractional count 7/2. -/
theorem claim_C7_witness :
    fullBufS3.WF
    ∧ (fullBufS3.clampCount (7/2 : Rat) ≤ fullBufS3.size
      ∧ (fullBufS3.size ≤ (Rat.floor (7/2 : Rat)).toNat →
          fullBufS3.clampCount (7/2 : Rat) = fullBufS3.size)
      ∧ (0 < fullBufS3.size →
          fullBufS3.getRaw Direction.headString (some (7/2 : Rat))
            = .ok (.many (fullBufS3.toList.take (fullBufS3.clampCount (7/2 : Rat))))
          ∧ fullBufS3.getRaw Direction.tailString (some (7/2 : Rat))
            = .ok (.many (fullBufS3.toList.reverse.take (fullBufS3.clampCount (7/2 : Rat)))))
      ∧ ((⟨fullBufS3⟩ : BufferManager String).popHeadN (7/2 : Rat)).1
          = fullBufS3.toList.take (fullBufS3.clampCount (7/2 : Rat))
      ∧ ((⟨fullBufS3⟩ : BufferManager String).popTailN (7/2 : Rat)).1
          = fullBufS3.toList.reverse.take (fullBufS3.clampCount (7/2 : Rat))) :=
  ⟨by decide,
    (claim_C7_boundaries_never_raise String fullBufS3 (7/2 : Rat)).2.2 (by decide)⟩

/-- C8: Index canonicalization on emptying: a pop that brings the count
to 0 resets both cursors to 0 (either side), and pushing one item into
any well-formed empty buffer (either side) makes that item both the head
peek and the tail peek. -/
theorem claim_C8_canonicalization :
    ∀ (T : Type) (b : CircularBuffer T) (x : T),
    (b.size = 1 →
      ((b.pop .head).2.head = 0 ∧ (b.pop .head).2.tail = 0 ∧ (b.pop .head).2.size = 0)
      ∧ ((b.pop .tail).2.head = 0 ∧ (b.pop .tail).2.tail = 0 ∧ (b.pop .tail).2.size = 0))
    ∧ (b.WF → b.size = 0 → ∀ d : Direction,
        (b.push x d).get1 .head = some x ∧ (b.push x d).get1 .tail = some x) := by
  intro T b x
  constructor
  · intro hs
    constructor
    · simp only [CircularBuffer.pop]
      rw [if_neg (by omega), if_pos (by omega)]
      exact ⟨rfl, rfl, rfl⟩
    · simp only [CircularBuffer.pop]
      rw [if_neg (by omega), if_pos (by omega)]
      exact ⟨rfl, rfl, rfl⟩
  · intro hw hs d
    obtain ⟨hlen, hlpos, hllc, hsl, hhl, htl⟩ := hw
    have hcpos : 0 < b.capacity := Nat.lt_of_lt_of_le hlpos hllc
    have htb : b.tail = b.head := by
      rw [htl, hs, Nat.add_zero, Nat.mod_eq_of_lt hhl]
    have htlt : b.tail < b.capacity := by rw [htb]; exact hhl
    cases d with
    | head =>
      simp only [CircularBuffer.push]
      rw [if_pos (by omega)]
      constructor
      · show (b.buffer.set ((b.head + b.capacity - 1) % b.capacity) (some x)).getD
            ((b.head + b.capacity - 1) % b.capacity) none = some x
        exact getD_set_self _ _ _ _ (by rw [hlen]; exact Nat.mod_lt _ hcpos)
      · show (b.buffer.set ((b.head + b.capacity - 1) % b.capacity) (some x)).getD
            ((b.tail + b.capacity - 1) % b.capacity) none = some x
        rw [htb]
        exact getD_set_self _ _ _ _ (by rw [hlen]; exact Nat.mod_lt _ hcpos)
    | tail =>
      simp only [CircularBuffer.push]
      rw [if_pos (by omega)]
      constructor
      · show (b.buffer.set b.tail (some x)).getD b.head none = some x
        rw [← htb]
        exact getD_set_self _ _ _ _ (by rw [hlen]; exact htlt)
      · show (b.buffer.set b.tail (some x)).getD
            (((b.tail + 1) % b.capacity + b.capacity - 1) % b.capacity) none = some x
        have hidx : ((b.tail + 1) % b.capacity + b.capacity - 1) % b.capacity = b.tail := by
          rw [CircularBuffer.pred_mod_of_mod hcpos]
          have he : b.tail + 1 + b.capacity - 1 = b.tail + b.capacity := by omega
          rw [he, Nat.add_mod_right, Nat.mod_eq_of_lt htlt]
        rw [hidx]
        exact getD_set_self _ _ _ _ (by rw [hlen]; exact htlt)

/-- Witness for C8: popping a concrete one-element buffer canonicalizes
both cursors, and pushing into a concrete empty buffer makes the item
both peeks. -/
theorem claim_C8_witness :
    (oneBufS1.size = 1 ∧ emptyBufS1.WF ∧ emptyBufS1.size = 0)
    ∧ (((oneBufS1.pop .head).2.head = 0 ∧ (oneBufS1.pop .head).2.tail = 0
          ∧ (oneBufS1.pop .head).2.size = 0)
       ∧ ((oneBufS1.pop .tail).2.head = 0 ∧ (oneBufS1.pop .tail).2.tail = 0
          ∧ (oneBufS1.pop .tail).2.size = 0))
    ∧ ((emptyBufS1.push "Y" .tail).get1 .head = some "Y"
       ∧ (emptyBufS1.push "Y" .tail).get1 .tail = some "Y") :=
  ⟨⟨by decide, by decide, by decide⟩,
    (claim_C8_canonicalization String oneBufS1 "Y").1 (by decide),
    (claim_C8_canonicalization String emptyBufS1 "Y").2 (by decide) (by decide) .tail⟩

/-- C9: Single-vs-bulk dispatch is structural: pushHead and pushTail
decide by Array.isArray on the runtime argument, so for every array-valued
argument the many-items branch runs and the elements are inserted
individually; the single-item interpretation is unreachable — concretely,
a capacity-1 buffer receiving pushTail of the two-element array stores its
last element, not the array itself. -/
theorem claim_C9_structural_dispatch :
    (∀ (m : BufferManager JSVal) (xs : List JSVal),
      BufferManager.isMany (.arr xs) = true
      ∧ m.pushTailJS (.arr xs) = m.pushTailMany xs
      ∧ m.pushHeadJS (.arr xs) = m.pushHeadMany xs)
    ∧ (BufferManager.create JSVal 1).map
        (fun m => (m.pushTailJS (.arr [.prim 0, .prim 1])).getAll)
      = .ok [some (.prim 1)]
    ∧ [some (JSVal.prim 1)] ≠ [some (JSVal.arr [JSVal.prim 0, JSVal.prim 1])] := by
  refine ⟨?_, by rfl, ?_⟩
  · intro m xs
    exact ⟨rfl, rfl, rfl⟩
  · intro h
    injection h with h1 h2
    injection h1 with h3
    exact JSVal.noConfusion h3

/-- C10: Non-integer counts are floored before clamping: the effective
count is min(max(0, floor(x)), size); every counted form behaves exactly
as it does at the floored count, and the produced array has exactly the
effective count as its length. -/
theorem claim_C10_floor_before_clamp :
    ∀ (T : Type) (b : CircularBuffer T) (c : Rat) (d : String),
    ((b.clampCount c : Int) = min (max 0 (Rat.floor c)) (b.size : Int))
    ∧ b.clampCount c = b.clampCount ((Rat.floor c : Int) : Rat)
    ∧ b.getRaw d (some c) = b.getRaw d (some ((Rat.floor c : Int) : Rat))
    ∧ (⟨b⟩ : BufferManager T).popHeadN c
        = (⟨b⟩ : BufferManager T).popHeadN ((Rat.floor c : Int) : Rat)
    ∧ (⟨b⟩ : BufferManager T).popTailN c
        = (⟨b⟩ : BufferManager T).popTailN ((Rat.floor c : Int) : Rat)
    ∧ (b.getManyHead (b.clampCount c)).length = b.clampCount c
    ∧ (b.getManyTail (b.clampCount c)).length = b.clampCount c
    ∧ (b.WF →
        ((⟨b⟩ : BufferManager T).popHeadN c).1.length = b.clampCount c
        ∧ ((⟨b⟩ : BufferManager T).popTailN c).1.length = b.clampCount c) := by
  intro T b c d
  have hfloor : Rat.floor ((Rat.floor c : Int) : Rat) = Rat.floor c := by
    rw [rat_floor_eq]
    exact Int.floor_intCast _
  have hclampEq : b.clampCount c = b.clampCount ((Rat.floor c : Int) : Rat) := by
    unfold CircularBuffer.clampCount
    rw [hfloor]
  refine ⟨?_, hclampEq, ?_, ?_, ?_, ?_, ?_, ?_⟩
  · show ((min (Rat.floor c).toNat b.size : Nat) : Int) = min (max 0 (Rat.floor c)) (b.size : Int)
    rw [Nat.cast_min, Int.toNat_eq_max, max_comm]
  · simp only [CircularBuffer.getRaw]
    rw [hclampEq]
  · simp only [BufferManager.popHeadN, hfloor]
  · simp only [BufferManager.popTailN, hfloor]
  · exact CircularBuffer.getManyHead_length b _
  · exact CircularBuffer.getManyTail_length b _
  · intro hw
    constructor
    · show (BufferManager.popLoop .head (min (Rat.floor c).toNat b.size) b).1.length
        = b.clampCount c
      rw [(BufferManager.popLoop_head_spec _ b hw (Nat.min_le_right _ _)).1,
          List.length_take, CircularBuffer.toList_length]
      exact Nat.min_eq_left (Nat.min_le_right _ _)
    · show (BufferManager.popLoop .tail (min (Rat.floor c).toNat b.size) b).1.length
        = b.clampCount c
      rw [(BufferManager.popLoop_tail_spec _ b hw (Nat.min_le_right _ _)).1,
          List.length_take, List.length_reverse, CircularBuffer.toList_length]
      exact Nat.min_eq_left (Nat.min_le_right _ _)

/-- Witness for C10: the counted-pop length part at a concrete full
capacity-3 buffer with the fractional count 5/2. -/
theorem claim_C10_witness :
    fullBufS3.WF
    ∧ (((⟨fullBufS3⟩ : BufferManager String).popHeadN (5/2 : Rat)).1.length
        = fullBufS3.clampCount (5/2 : Rat)
       ∧ ((⟨fullBufS3⟩ : BufferManager String).popTailN (5/2 : Rat)).1.length
        = fullBufS3.clampCount (5/2 : Rat)) :=
  ⟨by decide,
    (claim_C10_floor_before_clamp String fullBufS3 (5/2 : Rat)
      Direction.headString).2.2.2.2.2.2.2 (by decide)⟩
